import Mathlib

/-!
# Verification of the ddo-caching branch-and-bound core

A shallow embedding, in Lean 4, of the core of the `ddo-caching` solver:
the no-duplicate frontier (`src/frontier/no_dup.rs`), the barrier decision
diagram compiler (`src/mdd/with_barrier.rs`) and the barrier parallel
solver driver (`src/solver/barrier.rs`).  Rust `isize` values are modelled
as `Int` together with explicit saturation at the `isize` range limits;
hash maps are modelled as association lists (first match wins, insertion
overwrites the existing binding); `Arc` sharing is dropped (states are
plain values).  Every definition mirrors the corresponding Rust item,
statement for statement.
-/

namespace DdoCaching

/-- `isize::MAX` for the 64-bit targets the crate is built for. -/
def IMAX : Int := 2 ^ 63 - 1

/-- `isize::MIN` for the 64-bit targets the crate is built for. -/
def IMIN : Int := -(2 ^ 63)

/-- Rust `isize::saturating_add`: the exact sum clamped into the `isize` range. -/
def satAdd (a b : Int) : Int := max IMIN (min IMAX (a + b))

/-- Rust `isize::saturating_sub`: the exact difference clamped into the `isize` range. -/
def satSub (a b : Int) : Int := max IMIN (min IMAX (a - b))

/-- Two's-complement wrap-around of an integer into the 64-bit signed range.
This is what a plain (non-saturating) Rust arithmetic operator computes in
release builds when the exact result leaves the `isize` range. -/
def wrap64 (x : Int) : Int := (x + 2 ^ 63) % 2 ^ 64 - 2 ^ 63

/-- Plain Rust `-` on `isize` (release semantics): wraps on overflow. -/
def wrapSub (a b : Int) : Int := wrap64 (a - b)

/-- `Variable`: a non-negative index into the variable ordering (prelude.rs). -/
structure Variable where
  id : Nat
deriving DecidableEq, Repr

/-- `Decision`: a pair of a variable and an integer value (prelude.rs). -/
structure Decision where
  var : Variable
  value : Int
deriving DecidableEq, Repr

/-- `SubProblem`: an open node of the branch-and-bound (prelude.rs). -/
structure SubProblem (σ : Type) where
  state : σ
  value : Int
  path : List Decision
  ub : Int
deriving DecidableEq, Repr

instance [Inhabited σ] : Inhabited (SubProblem σ) :=
  ⟨{ state := default, value := 0, path := [], ub := 0 }⟩

/-- `CompilationType` (prelude.rs). -/
inductive CompilationType where
  | Exact
  | Relaxed
  | Restricted
deriving DecidableEq, Repr

/-- `CutsetType` (prelude.rs). -/
inductive CutsetType where
  | LastExactLayer
  | Frontier
deriving DecidableEq, Repr

/-- `BarrierInfo`: a per-state threshold entry of the barrier (with_barrier.rs). -/
structure BarrierInfo where
  theta : Int
  explored : Bool
deriving DecidableEq, Repr

/-- Node flags.  Modelled from the spec: the file `node_flags.rs` holding the
`NodeFlags` bitfield is not part of the provided sources; the spec describes it
as a packed bitfield with the bits Exact, Relaxed, Deleted, Cutset, Marked and
PrunedByBarrier, each individually settable and readable. -/
structure NodeFlags where
  isExact : Bool
  isRelaxed : Bool
  isDeleted : Bool
  isCutset : Bool
  isMarked : Bool
  isPrunedByBarrier : Bool
deriving DecidableEq, Repr

namespace NodeFlags

/-- `NodeFlags::new_exact()`: fresh flags with only the Exact bit set. -/
def newExact : NodeFlags :=
  { isExact := true, isRelaxed := false, isDeleted := false,
    isCutset := false, isMarked := false, isPrunedByBarrier := false }

/-- `NodeFlags::new_relaxed()`: fresh flags with only the Relaxed bit set. -/
def newRelaxed : NodeFlags :=
  { isExact := false, isRelaxed := true, isDeleted := false,
    isCutset := false, isMarked := false, isPrunedByBarrier := false }

def setRelaxed (f : NodeFlags) (b : Bool) : NodeFlags := { f with isRelaxed := b }
def setDeleted (f : NodeFlags) (b : Bool) : NodeFlags := { f with isDeleted := b }
def setCutset (f : NodeFlags) (b : Bool) : NodeFlags := { f with isCutset := b }
def setMarked (f : NodeFlags) (b : Bool) : NodeFlags := { f with isMarked := b }
def setPrunedByBarrier (f : NodeFlags) (b : Bool) : NodeFlags := { f with isPrunedByBarrier := b }

end NodeFlags

/-- A DD node (with_barrier.rs `Node<T>`). -/
structure Node (σ : Type) where
  state : σ
  value : Int
  best : Option Nat
  inbound : Option Nat
  depth : Nat
  value_bot : Int
  theta : Int
  rub : Int
  flags : NodeFlags
deriving DecidableEq, Repr

instance [Inhabited σ] : Inhabited (Node σ) :=
  ⟨{ state := default, value := 0, best := none, inbound := none, depth := 0,
     value_bot := 0, theta := 0, rub := 0, flags := NodeFlags.newExact }⟩

/-- A DD edge (with_barrier.rs `Edge`).  The Rust field `from` is a Lean
keyword, hence the trailing underscore. -/
structure Edge where
  from_ : Nat
  decision : Decision
  cost : Int
  next : Option Nat
deriving DecidableEq, Repr

/-- Association-list lookup: first binding wins (models `FxHashMap::get`). -/
def alookup [DecidableEq σ] (l : List (σ × β)) (s : σ) : Option β :=
  match l with
  | [] => none
  | (k, v) :: t => if k = s then some v else alookup t s

/-- Association-list insertion overwriting the existing binding if any
(models `FxHashMap::insert`). -/
def ainsert [DecidableEq σ] (l : List (σ × β)) (s : σ) (v : β) : List (σ × β) :=
  match l with
  | [] => [(s, v)]
  | (k, w) :: t => if k = s then (s, v) :: t else (k, w) :: ainsert t s v

/-- Association-list removal of the binding for a key
(models `FxHashMap::remove`, dropping the returned value). -/
def aremove [DecidableEq σ] (l : List (σ × β)) (s : σ) : List (σ × β) :=
  match l with
  | [] => []
  | (k, w) :: t => if k = s then t else (k, w) :: aremove t s

/-- Index update on a list of naturals: `l[i] += 1` (no-op out of range,
which never happens in the modelled runs). -/
def incAt (l : List Nat) (i : Nat) : List Nat := l.set i (l.getD i 0 + 1)

/-- Index update on a list of naturals: `l[i] -= 1`. -/
def decAt (l : List Nat) (i : Nat) : List Nat := l.set i (l.getD i 0 - 1)

/-! ## The no-duplicate frontier (`src/frontier/no_dup.rs`) -/

/-- The `MaxUB` comparator of `src/frontier/mod.rs`: lexicographic on the
upper bound, then on the state ranking. -/
def maxUB (rank : σ → σ → Ordering) (l r : SubProblem σ) : Ordering :=
  (compare l.ub r.ub).then (rank l.state r.state)

/-- The `Action` enum of no_dup.rs. -/
inductive Action where
  | doNothing
  | bubbleUp (id : Nat)
  | bubbleDown (id : Nat)
deriving DecidableEq, Repr

/-- `NoDupFrontier`: the updatable binary heap with state deduplication.
`states` maps a state to the id of its unique stored node, `nodes` is the
append-only payload vector, `pos` maps a node id to its heap slot, `heap`
is the vector of ids ordered as a binary max-heap, and `recycle_bin` holds
the freed ids. -/
structure Fr (σ : Type) where
  states : List (σ × Nat)
  nodes : List (SubProblem σ)
  pos : List Nat
  heap : List Nat
  recycle_bin : List Nat
deriving DecidableEq, Repr

namespace Fr

/-- `NoDupFrontier::new` (all backing structures empty). -/
def empty : Fr σ := { states := [], nodes := [], pos := [], heap := [], recycle_bin := [] }

/-- `NoDupFrontier::len`. -/
def len (fr : Fr σ) : Nat := fr.heap.length

/-- `NoDupFrontier::is_empty`. -/
def isEmpty (fr : Fr σ) : Bool := fr.heap.isEmpty

/-- `NoDupFrontier::clear`. -/
def clear (_fr : Fr σ) : Fr σ := empty

/-- `is_root`. -/
def isRoot (pos : Nat) : Bool := pos = 0

/-- `parent`: the heap slot of the parent of slot `pos`. -/
def parentPos (pos : Nat) : Nat :=
  if pos = 0 then pos
  else if pos % 2 = 1 then pos / 2
  else pos / 2 - 1

/-- `left_child`. -/
def leftChild (pos : Nat) : Nat := pos * 2 + 1

/-- `right_child`. -/
def rightChild (pos : Nat) : Nat := pos * 2 + 2

/-- `compare_at_pos`: compare the nodes stored at two heap slots. -/
def compareAtPos [Inhabited σ] (rank : σ → σ → Ordering) (fr : Fr σ) (x y : Nat) : Ordering :=
  maxUB rank (fr.nodes.getD (fr.heap.getD x 0) default) (fr.nodes.getD (fr.heap.getD y 0) default)

/-- `max_child_of`: the best child slot of slot `pos`, `0` when `pos` is a leaf. -/
def maxChildOf [Inhabited σ] (rank : σ → σ → Ordering) (fr : Fr σ) (pos : Nat) : Nat :=
  if leftChild pos ≥ fr.len then 0
  else if rightChild pos ≥ fr.len then leftChild pos
  else match compareAtPos rank fr (leftChild pos) (rightChild pos) with
    | .gt => leftChild pos
    | _ => rightChild pos

/-- The loop of `bubble_up`, starting at slot `me` which holds node `id`:
while `me` is not the root and sorts above its parent, swap with the parent.
The loop variable strictly decreases, so fuel `me + 1` makes the recursion
structural without changing its meaning. -/
def bubbleUpFrom [Inhabited σ] (rank : σ → σ → Ordering) :
    Nat → Fr σ → Nat → Nat → Fr σ
  | 0, fr, _, _ => fr
  | fuel + 1, fr, id, me =>
      if me = 0 then fr
      else
        let par := parentPos me
        if compareAtPos rank fr me par = .gt then
          let p_id := fr.heap.getD par 0
          bubbleUpFrom rank fuel
            { fr with
              pos := (fr.pos.set p_id me).set id par
              heap := (fr.heap.set me p_id).set par id }
            id par
        else fr

/-- `bubble_up`. -/
def bubbleUp [Inhabited σ] (rank : σ → σ → Ordering) (fr : Fr σ) (id : Nat) : Fr σ :=
  bubbleUpFrom rank (fr.pos.getD id 0 + 1) fr id (fr.pos.getD id 0)

/-- The loop of `bubble_down`, starting at slot `me` which holds node `id`.
The loop variable strictly increases and stays below the (constant) heap
size, so fuel `heap.length + 1` makes the recursion structural without
changing its meaning. -/
def bubbleDownFrom [Inhabited σ] (rank : σ → σ → Ordering) :
    Nat → Fr σ → Nat → Nat → Fr σ
  | 0, fr, _, _ => fr
  | fuel + 1, fr, id, me =>
      let kid := maxChildOf rank fr me
      if 0 < kid ∧ compareAtPos rank fr me kid = .lt then
        let k_id := fr.heap.getD kid 0
        bubbleDownFrom rank fuel
          { fr with
            pos := (fr.pos.set k_id me).set id kid
            heap := (fr.heap.set me k_id).set kid id }
          id kid
      else fr

/-- `bubble_down`. -/
def bubbleDown [Inhabited σ] (rank : σ → σ → Ordering) (fr : Fr σ) (id : Nat) : Fr σ :=
  bubbleDownFrom rank (fr.heap.length + 1) fr id (fr.pos.getD id 0)

/-- `process_action`. -/
def processAction [Inhabited σ] (rank : σ → σ → Ordering) (fr : Fr σ) (a : Action) : Fr σ :=
  match a with
  | .bubbleUp id => bubbleUp rank fr id
  | .bubbleDown id => bubbleDown rank fr id
  | .doNothing => fr

/-- `NoDupFrontier::push`.  When the state is already present the stored
record keeps the max of the known upper bounds, is replaced when the new
node has a strictly longer path value, and may bubble up; otherwise a slot
is allocated (from the recycle bin when possible) and the node bubbles up
from the heap tail. -/
def push [DecidableEq σ] [Inhabited σ] (rank : σ → σ → Ordering) (fr : Fr σ)
    (node : SubProblem σ) : Fr σ :=
  match alookup fr.states node.state with
  | some id =>
      let old_lp := (fr.nodes.getD id default).value
      let old_ub := (fr.nodes.getD id default).ub
      let new_lp := node.value
      let new_ub := node.ub
      let node' := { node with ub := max new_ub old_ub }
      let action := if maxUB rank node' (fr.nodes.getD id default) = .gt
        then Action.bubbleUp id else Action.doNothing
      let fr := if new_lp > old_lp then { fr with nodes := fr.nodes.set id node' } else fr
      let fr := if new_ub > old_ub then
          { fr with nodes := fr.nodes.set id { (fr.nodes.getD id default) with ub := new_ub } }
        else fr
      processAction rank fr action
  | none =>
      let alloc : Fr σ × Nat :=
        if fr.recycle_bin.isEmpty then
          ({ fr with nodes := fr.nodes ++ [node], pos := fr.pos ++ [0] }, fr.nodes.length)
        else
          let id := fr.recycle_bin.getLastD 0
          ({ fr with recycle_bin := fr.recycle_bin.dropLast, nodes := fr.nodes.set id node }, id)
      let fr := alloc.1
      let id := alloc.2
      let fr := { fr with heap := fr.heap ++ [id] }
      let fr := { fr with pos := fr.pos.set id (fr.heap.length - 1) }
      let fr := { fr with states := (node.state, id) :: fr.states }
      processAction rank fr (Action.bubbleUp id)

/-- `Vec::swap_remove(0)`: remove slot 0, moving the last element into it. -/
def swapRemoveZero (l : List Nat) : List Nat :=
  match l with
  | [] => []
  | [_] => []
  | _ :: rest => rest.getLastD 0 :: rest.dropLast

/-- `NoDupFrontier::pop`: swap-remove the heap root, bubble the replacement
down, recycle the id, drop the state binding, and return a clone of the node. -/
def pop [DecidableEq σ] [Inhabited σ] (rank : σ → σ → Ordering) (fr : Fr σ) :
    Option (SubProblem σ) × Fr σ :=
  if fr.isEmpty then (none, fr)
  else
    let id := fr.heap.getD 0 0
    let fr := { fr with heap := swapRemoveZero fr.heap }
    let fr :=
      if fr.heap.isEmpty then fr
      else
        let top := fr.heap.getD 0 0
        bubbleDown rank { fr with pos := fr.pos.set top 0 } top
    let fr := { fr with recycle_bin := fr.recycle_bin ++ [id] }
    let node := fr.nodes.getD id default
    let fr := { fr with states := aremove fr.states node.state }
    (some node, fr)

/-- A sequence of pushes, oldest first. -/
def pushAll [DecidableEq σ] [Inhabited σ] (rank : σ → σ → Ordering) (fr : Fr σ)
    (xs : List (SubProblem σ)) : Fr σ :=
  xs.foldl (push rank) fr

/-- The two conditional in-place updates of the occupied case of `push`,
factored out of its body: the stored record is replaced when the new value
is strictly larger (keeping the max of the ubs), then its ub alone is
raised when the new ub is strictly larger. -/
def pushOccupied [DecidableEq σ] [Inhabited σ] (fr : Fr σ) (node : SubProblem σ)
    (id : Nat) : Fr σ :=
  let old := fr.nodes.getD id default
  let node' := { node with ub := max node.ub old.ub }
  let fr1 := if node.value > old.value
    then { fr with nodes := fr.nodes.set id node' } else fr
  if node.ub > old.ub then
    { fr1 with nodes := fr1.nodes.set id { (fr1.nodes.getD id default) with ub := node.ub } }
  else fr1

end Fr

/-- The maximum of a non-empty integer list (0 on the empty list, which the
theorems never hit). -/
def listMax : List Int → Int
  | [] => 0
  | x :: t => t.foldl max x

/-- The pushes of a sequence that carry a given state. -/
def pushesOf [DecidableEq σ] (xs : List (SubProblem σ)) (s : σ) : List (SubProblem σ) :=
  xs.filter (fun x => decide (x.state = s))

/-- The structural well-formedness of the no-dup heap's backing stores:
positions mirror the node vector, heap entries are valid node ids, the
position vector inverts the heap, and no id occurs twice in the heap. -/
structure FrCore (fr : Fr σ) : Prop where
  pos_len : fr.pos.length = fr.nodes.length
  hsub : ∀ id ∈ fr.heap, id < fr.nodes.length
  coher : ∀ i, i < fr.heap.length → fr.pos.getD (fr.heap.getD i 0) 0 = i
  nodup : fr.heap.Nodup

/-- The full invariant of a push-only frontier run: the heap is well formed,
nothing was ever popped, every heap id is found back through the state map,
and the state map binds exactly the pushed states, each to a stored record
carrying the maximum pushed value and the maximum pushed upper bound. -/
structure FrInv [DecidableEq σ] [Inhabited σ] (pushes : List (SubProblem σ)) (fr : Fr σ) :
    Prop where
  core : FrCore fr
  recycle : fr.recycle_bin = []
  smap : ∀ id ∈ fr.heap, alookup fr.states ((fr.nodes.getD id default).state) = some id
  lookup_spec : ∀ s id, alookup fr.states s = some id →
    id ∈ fr.heap ∧ (fr.nodes.getD id default).state = s ∧
    pushesOf pushes s ≠ [] ∧
    (fr.nodes.getD id default).value = listMax ((pushesOf pushes s).map (fun x => x.value)) ∧
    (fr.nodes.getD id default).ub = listMax ((pushesOf pushes s).map (fun x => x.ub))
  absent : ∀ s, alookup fr.states s = none → pushesOf pushes s = []

/-! ## Problem contracts (`src/prelude.rs`) -/

/-- The `Problem` trait: the domain enumerator is modelled as returning the
list of decisions in emission order. -/
structure Problem (σ : Type) where
  nb_variables : Nat
  initial_state : σ
  initial_value : Int
  next_variable : List σ → Option Variable
  for_each_in_domain : Variable → σ → List Decision
  transition : σ → Decision → σ
  transition_cost : σ → Decision → Int
  estimate : σ → Int

/-- The `Relaxation` trait. -/
structure Relaxation (σ : Type) where
  merge : List σ → σ
  relax : σ → σ → σ → Decision → Int → Int

/-- `CompilationInput` (`src/prelude.rs`): the state ranking is the bare
comparison function of the `StateRanking` trait. -/
structure CompilationInput (σ : Type) where
  comp_type : CompilationType
  max_width : Nat
  problem : Problem σ
  relaxation : Relaxation σ
  ranking : σ → σ → Ordering
  residual : SubProblem σ
  best_lb : Int

instance : Inhabited Edge := ⟨{ from_ := 0, decision := ⟨⟨0⟩, 0⟩, cost := 0, next := none }⟩

/-- The shared barrier store: one map per depth, as `Arc<Vec<RwLock<FxHashMap>>>`. -/
abbrev Barriers (σ : Type) := List (List (σ × BarrierInfo))

/-! ## The barrier decision diagram (`src/mdd/with_barrier.rs`) -/

/-- The DD compiler state, `Barrier<T>` in with_barrier.rs.  The Rust field
`exact` is a Lean keyword, hence `exact_`. -/
structure Barrier (σ : Type) where
  root_pa : List Decision
  barriers : Barriers σ
  nodes : List (Node σ)
  edges : List Edge
  prev_l : List Nat
  next_l : List (σ × Nat)
  cutset : List Nat
  lel_depth : Option Nat
  best_n : Option Nat
  exact_ : Bool
  approximate : Bool
  cutset_type : CutsetType
  explored : Nat

namespace Barrier

/-- `Barrier::new`. -/
def new (barriers : Barriers σ) (cutset_type : CutsetType) : Barrier σ :=
  { root_pa := [], barriers := barriers, nodes := [], edges := [],
    prev_l := [], next_l := [], cutset := [], lel_depth := none, best_n := none,
    exact_ := true, approximate := false, cutset_type := cutset_type, explored := 0 }

/-- `Barrier::clear` (does not clear `prev_l`, the shared barrier store or
the cutset type, exactly as the source). -/
def clear (dd : Barrier σ) : Barrier σ :=
  { dd with
    root_pa := [], nodes := [], edges := [], next_l := [], cutset := [],
    lel_depth := none, best_n := none, exact_ := true, approximate := false, explored := 0 }

/-- `self.nodes[id.0]` (out-of-range indexing, which panics in Rust, yields
the default node; it is never exercised by the modelled runs). -/
def getNode [Inhabited σ] (dd : Barrier σ) (id : Nat) : Node σ := dd.nodes.getD id default

/-- In-place update of one node. -/
def updateNode [Inhabited σ] (dd : Barrier σ) (id : Nat) (f : Node σ → Node σ) : Barrier σ :=
  { dd with nodes := dd.nodes.set id (f (getNode dd id)) }

/-- `has_exact_best_path`, with explicit fuel for the walk up the `best`
edges (the chains are acyclic in every produced DD, so any fuel larger than
the node count is exact). -/
def has_exact_best_path [Inhabited σ] (dd : Barrier σ) : Nat → Option Nat → Bool
  | _, none => true
  | 0, some _ => true
  | fuel + 1, some node_id =>
      let n := getNode dd node_id
      if n.flags.isExact then true
      else
        !n.flags.isRelaxed &&
          has_exact_best_path dd fuel (n.best.map (fun e => (dd.edges.getD e default).from_))

/-- `_is_exact`. -/
def isExactOf [Inhabited σ] (dd : Barrier σ) (comp_type : CompilationType) : Bool :=
  !dd.approximate ||
    (decide (comp_type = CompilationType.Relaxed) &&
      has_exact_best_path dd (dd.nodes.length + 1) dd.best_n)

/-- `_best_value`. -/
def bestValue [Inhabited σ] (dd : Barrier σ) : Option Int :=
  dd.best_n.map (fun id => (getNode dd id).value)

/-- The walk of `_best_path_partial_borrow`: follow `best` edges up to the
root, appending each decision (fuel bounds the walk as for
`has_exact_best_path`). -/
def bestPathFrom [Inhabited σ] (dd : Barrier σ) : Nat → Option Nat → List Decision → List Decision
  | _, none, sol => sol
  | 0, some _, sol => sol
  | fuel + 1, some eid, sol =>
      let edge := dd.edges.getD eid default
      bestPathFrom dd fuel (getNode dd edge.from_).best (sol ++ [edge.decision])

/-- `_best_path_partial_borrow` seeded with the recorded root path. -/
def bestPath [Inhabited σ] (dd : Barrier σ) (id : Nat) : List Decision :=
  bestPathFrom dd (dd.nodes.length + 1) (getNode dd id).best dd.root_pa

/-- `_best_solution`. -/
def bestSolution [Inhabited σ] (dd : Barrier σ) : Option (List Decision) :=
  dd.best_n.map (fun id => bestPath dd id)

/-- `_drain_cutset`: when the DD has a best terminal value, yield a
sub-problem for every still-Marked cutset node, with
`ub = min(min(value ⊕ rub, value ⊕ value_bot), best_value)`; the cutset is
drained destructively.  When there is no best value nothing is drained. -/
def drainCutset [Inhabited σ] (dd : Barrier σ) : List (SubProblem σ) × Barrier σ :=
  match bestValue dd with
  | none => ([], dd)
  | some bv =>
      (dd.cutset.foldl (fun acc node_id =>
          let node := getNode dd node_id
          if node.flags.isMarked then
            let rub := satAdd node.value node.rub
            let locb := satAdd node.value node.value_bot
            let ub := min (min rub locb) bv
            acc ++ [{ state := node.state, value := node.value,
                      path := bestPath dd node_id, ub := ub }]
          else acc) [],
       { dd with cutset := [] })

/-- `try_update_barrier`: skip entirely below the last exact layer under the
LEL cutset policy; otherwise overwrite the entry exactly when it is absent,
strictly improved, or equal with the explored bit flipping from false to
true. -/
def tryUpdateBarrier [DecidableEq σ] (dd : Barrier σ) (depth : Nat) (state : σ)
    (theta : Int) (explored : Bool) : Barrier σ :=
  let layer := dd.barriers.getD depth []
  let update : Bool :=
    ((alookup layer state).map (fun info =>
      if theta > info.theta ∨ (theta = info.theta ∧ info.explored = false ∧ explored = true)
      then true else false)).getD true
  let proceed : Barrier σ :=
    if update then
      { dd with barriers := dd.barriers.set depth (ainsert layer state ⟨theta, explored⟩) }
    else dd
  match dd.cutset_type, dd.lel_depth with
  | CutsetType.LastExactLayer, some l => if depth > l then dd else proceed
  | _, _ => proceed

/-- `branch_on`. -/
def branchOn [DecidableEq σ] [Inhabited σ] (dd : Barrier σ) (from_id : Nat)
    (decision : Decision) (problem : Problem σ) : Barrier σ :=
  let state := (getNode dd from_id).state
  let next_state := problem.transition state decision
  let cost := problem.transition_cost state decision
  match alookup dd.next_l next_state with
  | none =>
      let node_id := dd.nodes.length
      let edge_id := dd.edges.length
      let dd := { dd with
        edges := dd.edges ++ [({ from_ := from_id, decision := decision, cost := cost,
                                 next := none } : Edge)] }
      let dd := { dd with
        nodes := dd.nodes ++ [({
          state := next_state,
          value := satAdd (getNode dd from_id).value cost,
          best := some edge_id, inbound := some edge_id,
          depth := (getNode dd from_id).depth + 1,
          value_bot := IMIN, theta := IMAX, rub := IMAX,
          flags := (getNode dd from_id).flags } : Node σ)] }
      { dd with next_l := dd.next_l ++ [(next_state, node_id)] }
  | some node_id =>
      let flags := (getNode dd from_id).flags
      let value := satAdd (getNode dd from_id).value cost
      let edge_id := dd.edges.length
      let dd := { dd with
        edges := dd.edges ++ [({ from_ := from_id, decision := decision, cost := cost,
                                 next := (getNode dd node_id).inbound } : Edge)] }
      let dd := updateNode dd node_id (fun n => { n with inbound := some edge_id })
      if value > (getNode dd node_id).value ∨
          (value = (getNode dd node_id).value ∧ flags.isExact = true) then
        updateNode dd node_id (fun n => { n with value := value, best := some edge_id, flags := flags })
      else dd

/-- The layer comparator used by `restrict` and `relax`: descending on
(value, ranking), realised by sorting ascending with the reversed
comparator, exactly as the source. -/
def layerCmp [Inhabited σ] (input : CompilationInput σ) (dd : Barrier σ) (a b : Nat) : Ordering :=
  (((compare (getNode dd a).value (getNode dd b).value).then
      (input.ranking (getNode dd a).state (getNode dd b).state))).swap

/-- Insertion of an element into a list sorted by `le`. -/
def insertSorted (le : α → α → Bool) (x : α) : List α → List α
  | [] => [x]
  | y :: t => if le x y then x :: y :: t else y :: insertSorted le x t

/-- Insertion sort (models `sort_unstable_by`; ties are resolved by the
total state ranking in every modelled run, so the unstable order is moot). -/
def sortBy (le : α → α → Bool) : List α → List α
  | [] => []
  | x :: t => insertSorted le x (sortBy le t)

/-- Sort a layer with the reversed comparator (descending by value/ranking). -/
def sortLayer [Inhabited σ] (input : CompilationInput σ) (dd : Barrier σ)
    (curr_l : List Nat) : List Nat :=
  sortBy (fun a b => layerCmp input dd a b ≠ Ordering.gt) curr_l

/-- `restrict`: mark approximate, sort descending, truncate to the width. -/
def restrict [Inhabited σ] (input : CompilationInput σ) (dd : Barrier σ)
    (curr_l : List Nat) : Barrier σ × List Nat :=
  let dd := { dd with approximate := true }
  (dd, (sortLayer input dd curr_l).take input.max_width)

/-- The chain of inbound edge ids of a node, following `next` pointers
(fuel larger than the edge count is exact on every produced DD, since the
`next` pointers strictly decrease). -/
def inboundChainAux (edges : List Edge) : Nat → Option Nat → List Nat
  | _, none => []
  | 0, some _ => []
  | fuel + 1, some eid => eid :: inboundChainAux edges fuel (edges.getD eid default).next

def inboundChain [Inhabited σ] (dd : Barrier σ) (node_id : Nat) : List Nat :=
  inboundChainAux dd.edges (dd.edges.length + 1) (getNode dd node_id).inbound

/-- The last-exact-layer collection at the top of `relax`: when the DD is
still exact under the LEL policy, copy the previous layer into the cutset,
flag its nodes, and stamp the last exact depth. -/
def relaxCollectLEL [Inhabited σ] (dd : Barrier σ) : Barrier σ :=
  if dd.cutset_type = CutsetType.LastExactLayer ∧ dd.approximate = false then
    dd.prev_l.foldl (fun dd id =>
      let dd := { dd with cutset := dd.cutset ++ [id] }
      let dd := updateNode dd id (fun n => { n with flags := n.flags.setCutset true })
      { dd with lel_depth := some (getNode dd id).depth }) dd
  else dd

/-- One inbound edge of a dropped node, re-pointed to the merged node with
the relaxed cost (the body of the `while` loop of `relax`). -/
def relaxRedirectEdge [DecidableEq σ] [Inhabited σ] (input : CompilationInput σ)
    (merged : σ) (merged_id drop_id : Nat) (dd : Barrier σ) (eid : Nat) : Barrier σ :=
  let edge := dd.edges.getD eid default
  let src := (getNode dd edge.from_).state
  let rcost := input.relaxation.relax src (getNode dd drop_id).state merged
    edge.decision edge.cost
  let new_eid := dd.edges.length
  let dd := { dd with
    edges := dd.edges ++ [({ from_ := edge.from_, decision := edge.decision,
                             cost := rcost,
                             next := (getNode dd merged_id).inbound } : Edge)] }
  let dd := updateNode dd merged_id (fun n => { n with inbound := some new_eid })
  let new_value := satAdd (getNode dd edge.from_).value rcost
  if new_value ≥ (getNode dd merged_id).value then
    updateNode dd merged_id (fun n => { n with best := some new_eid, value := new_value })
  else dd

/-- One dropped node of `relax`: mark it Deleted and redirect its whole
inbound list into the merged node. -/
def relaxDropNode [DecidableEq σ] [Inhabited σ] (input : CompilationInput σ)
    (merged : σ) (merged_id : Nat) (dd : Barrier σ) (drop_id : Nat) : Barrier σ :=
  let dd := updateNode dd drop_id (fun n => { n with flags := n.flags.setDeleted true })
  (inboundChain dd drop_id).foldl (relaxRedirectEdge input merged merged_id drop_id) dd

/-- The fresh merged super-node appended by `relax` when no kept node can be
recycled: Relaxed-flagged, value `isize::MIN`, at the dropped nodes' depth. -/
def allocMerged [Inhabited σ] (dd : Barrier σ) (merged : σ) (dpth : Nat) : Barrier σ × Nat :=
  ({ dd with nodes := dd.nodes ++ [({
       state := merged, value := IMIN, best := none, inbound := none,
       depth := dpth,
       value_bot := IMIN, theta := IMAX, rub := IMAX,
       flags := NodeFlags.newRelaxed } : Node σ)] }, dd.nodes.length)

/-- The body of `relax` after the LEL collection and the `approximate`
marking: sort, split into kept and merged nodes, build (or recycle) the
merged super-node, redirect the dropped nodes' edges, and shrink the layer. -/
def relaxCore [DecidableEq σ] [Inhabited σ] (input : CompilationInput σ) (dd : Barrier σ)
    (curr_l : List Nat) : Barrier σ × List Nat :=
  let curr_l := sortLayer input dd curr_l
  let keep := curr_l.take (input.max_width - 1)
  let mergeL := curr_l.drop (input.max_width - 1)
  let merged := input.relaxation.merge (mergeL.map (fun id => (getNode dd id).state))
  let recycled := keep.find? (fun id => decide ((getNode dd id).state = merged))
  let alloc : Barrier σ × Nat :=
    match recycled with
    | some id => (dd, id)
    | none => allocMerged dd merged ((getNode dd (mergeL.headD 0)).depth)
  let dd := alloc.1
  let merged_id := alloc.2
  let dd := updateNode dd merged_id (fun n => { n with flags := n.flags.setRelaxed true })
  let dd := mergeL.foldl (relaxDropNode input merged merged_id) dd
  match recycled with
  | some _ =>
      let curr_l := curr_l.take input.max_width
      let saved_id := curr_l.getD (input.max_width - 1) 0
      (updateNode dd saved_id (fun n => { n with flags := n.flags.setDeleted false }), curr_l)
  | none => (dd, curr_l.take (input.max_width - 1) ++ [merged_id])

/-- `relax`: the LEL collection, the `approximate` marking, then the merge. -/
def relax [DecidableEq σ] [Inhabited σ] (input : CompilationInput σ) (dd : Barrier σ)
    (curr_l : List Nat) : Barrier σ × List Nat :=
  relaxCore input { relaxCollectLEL dd with approximate := true } curr_l

/-- The barrier prefilter at the top of the compilation loop: below the root
and with a non-empty barrier layer, drop (and flag) every non-relaxed node
whose value does not beat the stored threshold. -/
def barrierPrefilter [DecidableEq σ] [Inhabited σ] (dd : Barrier σ) (curr_l : List Nat)
    (depth root_depth : Nat) : Barrier σ × List Nat :=
  if depth > root_depth ∧ (dd.barriers.getD depth []).isEmpty = false then
    curr_l.foldl (fun (acc : Barrier σ × List Nat) node_id =>
        let dd := acc.1
        if (getNode dd node_id).flags.isRelaxed then (dd, acc.2 ++ [node_id])
        else
          let state := (getNode dd node_id).state
          let theta := ((alookup (dd.barriers.getD depth []) state).map
              (fun bi => bi.theta)).getD IMIN
          if (getNode dd node_id).value > theta then (dd, acc.2 ++ [node_id])
          else
            let dd := updateNode dd node_id (fun n => { n with theta := theta })
            let dd := updateNode dd node_id
              (fun n => { n with flags := n.flags.setPrunedByBarrier true })
            (dd, acc.2)) (dd, [])
  else (dd, curr_l)

/-- The body of the per-layer development loop of `_compile`, for one node:
refresh the rough upper bound, branch when the node's bound beats the
incumbent, otherwise record a theta for later propagation; in relaxed mode
exact nodes update the shared barrier immediately. -/
def expandNode [DecidableEq σ] [Inhabited σ] (input : CompilationInput σ) (var : Variable)
    (depth : Nat) (dd : Barrier σ) (node_id : Nat) : Barrier σ :=
  let state := (getNode dd node_id).state
  let rub := input.problem.estimate state
  let dd := updateNode dd node_id (fun n => { n with rub := rub })
  let ub := satAdd rub (getNode dd node_id).value
  if ub > input.best_lb then
    let dd := (input.problem.for_each_in_domain var state).foldl
        (fun dd decision => branchOn dd node_id decision input.problem) dd
    let dd := { dd with explored := dd.explored + 1 }
    if input.comp_type = CompilationType.Relaxed ∧ (getNode dd node_id).flags.isExact = true then
      tryUpdateBarrier dd depth state (getNode dd node_id).value false
    else dd
  else
    let dd := updateNode dd node_id (fun n => { n with theta := satSub input.best_lb rub })
    if input.comp_type = CompilationType.Relaxed ∧ (getNode dd node_id).flags.isExact = true then
      tryUpdateBarrier dd depth state (getNode dd node_id).theta false
    else dd

/-- The per-layer development loop of `_compile`. -/
def expandLayer [DecidableEq σ] [Inhabited σ] (input : CompilationInput σ) (dd : Barrier σ)
    (curr_l : List Nat) (var : Variable) (depth : Nat) : Barrier σ :=
  curr_l.foldl (expandNode input var depth) dd

/-- One inbound edge step of `compute_local_bounds_and_theta`: propagate the
value-from-bottom and the Marked bit, tighten the source's theta, and under
the Frontier policy collect exact predecessors of non-exact marked nodes. -/
def localBoundsEdgeStep [DecidableEq σ] [Inhabited σ] (dd : Barrier σ) (node_id eid : Nat) :
    Barrier σ :=
  let edge := dd.edges.getD eid default
  let dd :=
    if (getNode dd node_id).flags.isMarked then
      let lp_from_bot_using_edge := satAdd (getNode dd node_id).value_bot edge.cost
      let dd := updateNode dd edge.from_
        (fun n => { n with value_bot := max n.value_bot lp_from_bot_using_edge })
      updateNode dd edge.from_ (fun n => { n with flags := n.flags.setMarked true })
    else dd
  let theta_using_edge := satSub (getNode dd node_id).theta edge.cost
  let dd := updateNode dd edge.from_ (fun n => { n with theta := min n.theta theta_using_edge })
  if dd.cutset_type = CutsetType.Frontier ∧ (getNode dd node_id).flags.isMarked = true then
    if (getNode dd node_id).flags.isExact = false ∧
        (getNode dd edge.from_).flags.isExact = true ∧
        (getNode dd edge.from_).flags.isCutset = false then
      let dd := updateNode dd edge.from_ (fun n => { n with flags := n.flags.setCutset true })
      { dd with cutset := dd.cutset ++ [edge.from_] }
    else dd
  else dd

/-- One node step of the reverse sweep of `compute_local_bounds_and_theta`. -/
def localBoundsNodeStep [DecidableEq σ] [Inhabited σ] (best_lb : Int) (dd : Barrier σ)
    (node_id : Nat) : Barrier σ :=
  if (getNode dd node_id).flags.isDeleted then dd
  else
    let dd :=
      if (getNode dd node_id).flags.isCutset then
        let locb := satAdd (getNode dd node_id).value (getNode dd node_id).value_bot
        if locb < best_lb then
          let pruning_theta := satSub best_lb (getNode dd node_id).value_bot
          updateNode dd node_id (fun n => { n with theta := min n.theta pruning_theta })
        else
          updateNode dd node_id (fun n => { n with theta := min n.theta n.value })
      else dd
    let dd :=
      if (getNode dd node_id).flags.isExact = true ∧
          (getNode dd node_id).flags.isPrunedByBarrier = false then
        tryUpdateBarrier dd (getNode dd node_id).depth (getNode dd node_id).state
          (getNode dd node_id).theta (!(getNode dd node_id).flags.isCutset)
      else dd
    (inboundChain dd node_id).foldl (fun dd eid => localBoundsEdgeStep dd node_id eid) dd

/-- `compute_local_bounds_and_theta`. -/
def computeLocalBoundsAndTheta [DecidableEq σ] [Inhabited σ] (dd : Barrier σ)
    (best_lb : Int) : Barrier σ :=
  let dd := dd.next_l.foldl (fun dd (p : σ × Nat) =>
      let node_id := p.2
      let dd := updateNode dd node_id (fun n => { n with value_bot := 0 })
      let dd := updateNode dd node_id (fun n => { n with flags := n.flags.setMarked true })
      if dd.cutset_type = CutsetType.LastExactLayer ∧ dd.approximate = false then
        updateNode dd node_id (fun n => { n with flags := n.flags.setCutset true })
      else if dd.cutset_type = CutsetType.Frontier ∧
          (getNode dd node_id).flags.isExact = true then
        updateNode dd node_id (fun n => { n with flags := n.flags.setCutset true })
      else dd) dd
  ((List.range dd.nodes.length).reverse).foldl (localBoundsNodeStep best_lb) dd

/-- Rust `Iterator::max_by_key`: among maxima the LAST one wins. -/
def maxByKeyLast (f : α → Int) : List α → Option α
  | [] => none
  | x :: t =>
      match maxByKeyLast f t with
      | none => some x
      | some y => if f x > f y then some x else some y

/-- The finalization of `_compile`: elect the best terminal, settle
exactness, and in relaxed mode run the local-bound/threshold sweep. -/
def finalizeCompile [DecidableEq σ] [Inhabited σ] (input : CompilationInput σ)
    (dd : Barrier σ) : Barrier σ :=
  let dd := { dd with
    best_n := maxByKeyLast (fun id => (getNode dd id).value) (dd.next_l.map (fun (p : σ × Nat) => p.2)) }
  let dd := { dd with exact_ := isExactOf dd input.comp_type }
  if input.comp_type = CompilationType.Relaxed then computeLocalBoundsAndTheta dd input.best_lb
  else dd

/-- Width enforcement for the current layer (step 3 of the main loop). -/
def widthEnforce [DecidableEq σ] [Inhabited σ] (input : CompilationInput σ) (dd : Barrier σ)
    (curr_l : List Nat) (depth root_depth : Nat) : Barrier σ × List Nat :=
  match input.comp_type with
  | CompilationType.Exact => (dd, curr_l)
  | CompilationType.Restricted =>
      if curr_l.length > input.max_width then restrict input dd curr_l else (dd, curr_l)
  | CompilationType.Relaxed =>
      if curr_l.length > input.max_width ∧ depth > root_depth + 1 then relax input dd curr_l
      else (dd, curr_l)

/-- The main loop of `_compile`.  `fuel` bounds the number of layer
iterations; the caller passes `nb_variables + 1`, which is exact for every
problem whose `next_variable` is none at terminal layers (as the contract
requires); an exhausted fuel returns the DD unfinalized. -/
def compileLoop [DecidableEq σ] [Inhabited σ] (fuel : Nat) (input : CompilationInput σ)
    (dd : Barrier σ) (curr_l : List Nat) (depth root_depth : Nat) : Barrier σ :=
  match fuel with
  | 0 => dd
  | fuel + 1 =>
      match input.problem.next_variable (dd.next_l.map (fun (p : σ × Nat) => p.1)) with
      | none => finalizeCompile input dd
      | some var =>
          let dd := { dd with prev_l := curr_l }
          let curr_l := dd.next_l.map (fun (p : σ × Nat) => p.2)
          let dd := { dd with next_l := [] }
          if curr_l.isEmpty then dd
          else
            let r1 := barrierPrefilter dd curr_l depth root_depth
            let r2 := widthEnforce input r1.1 r1.2 depth root_depth
            let dd := expandLayer input r2.1 r2.2 var depth
            compileLoop fuel input dd r2.2 (depth + 1) root_depth

/-- `_compile`: clear the storage, append the root node (whose `rub` is
computed with the PLAIN subtraction of the source, which wraps on overflow),
seed the next layer, and run the main loop. -/
def compile [DecidableEq σ] [Inhabited σ] (input : CompilationInput σ) (dd : Barrier σ) :
    Barrier σ :=
  let dd := clear dd
  let dd := { dd with root_pa := input.residual.path }
  let root_depth := dd.root_pa.length
  let root_v := input.residual.value
  let root_n : Node σ := {
    state := input.residual.state, value := root_v, best := none, inbound := none,
    depth := root_depth, value_bot := IMIN, theta := IMAX,
    rub := wrapSub input.residual.ub root_v,
    flags := NodeFlags.newExact }
  let dd := { dd with nodes := dd.nodes ++ [root_n], next_l := [(input.residual.state, 0)] }
  compileLoop (input.problem.nb_variables + 1) input dd [] root_depth root_depth

end Barrier

/-- Specification of the skip condition of `try_update_barrier`, following
the spec's words: under the LEL cutset policy, with a recorded last exact
depth, thresholds strictly below the cutset are not stored. -/
def lelSkips (dd : Barrier σ) (depth : Nat) : Bool :=
  decide (dd.cutset_type = CutsetType.LastExactLayer) &&
    (match dd.lel_depth with
     | some l => decide (depth > l)
     | none => false)

/-- Specification of the update condition of `try_update_barrier`, following
the spec's words: absent, or strictly larger theta, or equal theta with the
explored bit flipping false to true. -/
def barrierUpdateWanted [DecidableEq σ] (layer : List (σ × BarrierInfo)) (state : σ)
    (theta : Int) (explored : Bool) : Bool :=
  ((alookup layer state).map (fun info =>
    if theta > info.theta ∨ (theta = info.theta ∧ info.explored = false ∧ explored = true)
    then true else false)).getD true


/-- Specification of the dequeue-time skip condition of `get_workload`,
following the spec's words: the popped candidate is dropped exactly when
the barrier layer at its depth holds an entry for its state with
`value < theta`, or `value = theta` with the entry already explored. -/
def candidateSkipped [DecidableEq σ] (layer : List (σ × BarrierInfo)) (nn : SubProblem σ) :
    Bool :=
  ((alookup layer nn.state).map (fun info =>
    if nn.value < info.theta ∨ (nn.value = info.theta ∧ info.explored = true)
    then true else false)).getD false

/-! ## The barrier parallel solver driver (`src/solver/barrier.rs`)

Each critical-section operation of the driver is modelled as a pure
function on the `Critical` record (plus the shared barrier store where the
operation touches it); a run of the solver is an interleaving of these
atomic operations. -/

/-- The `Critical` record protected by the driver's mutex. -/
structure Critical (σ : Type) where
  fringe : Fr σ
  ongoing : Nat
  explored : Nat
  explored_dd : Nat
  open_by_layer : List Nat
  ongoing_by_layer : List Nat
  lowest_active_layer : Nat
  best_lb : Int
  best_ub : Int
  best_sol : Option (List Decision)
  upper_bounds : List Int
  interrupted : Bool
deriving Repr

/-- The `WorkLoad` enum. -/
inductive WorkLoadR (σ : Type) where
  | complete
  | interruption
  | starvation
  | workItem (node : SubProblem σ)
deriving Repr

namespace BarrierParallelSolver

/-- `root_node`. -/
def rootNode (problem : Problem σ) : SubProblem σ :=
  { state := problem.initial_state, value := problem.initial_value, path := [], ub := IMAX }

/-- The freshly constructed critical record of `custom`. -/
def newCritical (problem : Problem σ) (nb_threads : Nat) : Critical σ :=
  { fringe := Fr.empty, ongoing := 0, explored := 0, explored_dd := 0,
    open_by_layer := List.replicate (problem.nb_variables + 1) 0,
    ongoing_by_layer := List.replicate (problem.nb_variables + 1) 0,
    lowest_active_layer := 0, best_lb := IMIN, best_ub := IMAX, best_sol := none,
    upper_bounds := List.replicate nb_threads IMAX, interrupted := false }

/-- The fresh shared barrier store of `custom`: one empty map per depth `0..=n`. -/
def newBarriers (problem : Problem σ) : Barriers σ :=
  List.replicate (problem.nb_variables + 1) []

/-- `initialize`: push the root sub-problem and open layer 0. -/
def solverInit [DecidableEq σ] [Inhabited σ] (problem : Problem σ)
    (rank : σ → σ → Ordering) (crit : Critical σ) : Critical σ :=
  { crit with
    fringe := Fr.push rank crit.fringe (rootNode problem)
    open_by_layer := incAt crit.open_by_layer 0 }

/-- `maybe_update_best`: adopt the DD's best value and solution exactly when
the value strictly improves the incumbent lower bound. -/
def maybeUpdateBest (dd_best_value : Option Int) (dd_best_sol : Option (List Decision))
    (crit : Critical σ) : Critical σ :=
  let dd_best_value := dd_best_value.getD IMIN
  if dd_best_value > crit.best_lb then
    { crit with best_lb := dd_best_value, best_sol := dd_best_sol }
  else crit

/-- `enqueue_cutset`: tighten each drained cutset node's bound by the
processed node's bound and push it exactly when it still beats the
incumbent lower bound. -/
def enqueueCutset [DecidableEq σ] [Inhabited σ] (rank : σ → σ → Ordering)
    (dd : Barrier σ) (crit : Critical σ) (ub : Int) : Barrier σ × Critical σ :=
  let best_lb := crit.best_lb
  let drained := Barrier.drainCutset dd
  let crit := drained.1.foldl (fun crit cutset_node =>
      let cutset_node := { cutset_node with ub := min ub cutset_node.ub }
      if cutset_node.ub > best_lb then
        { crit with
          fringe := Fr.push rank crit.fringe cutset_node
          open_by_layer := incAt crit.open_by_layer cutset_node.path.length }
      else crit) crit
  (drained.2, crit)

/-- `notify_node_finished`. -/
def notifyNodeFinished (crit : Critical σ) (thread_id depth explored_dd : Nat) : Critical σ :=
  { crit with
    ongoing := crit.ongoing - 1
    upper_bounds := crit.upper_bounds.set thread_id IMAX
    ongoing_by_layer := decAt crit.ongoing_by_layer depth
    explored_dd := crit.explored_dd + explored_dd }

/-- The pop-and-filter loop at the bottom of `get_workload`, acting on the
already popped candidate `nn`.  The fuel bounds the number of pops; the
caller supplies one more than the fringe size, which is exact. -/
def workloadLoop [DecidableEq σ] [Inhabited σ] (rank : σ → σ → Ordering) (thread_id : Nat) :
    Nat → Barriers σ → Critical σ → SubProblem σ → WorkLoadR σ × Critical σ × Barriers σ
  | 0, barriers, crit, _ => (WorkLoadR.starvation, crit, barriers)
  | fuel + 1, barriers, crit, nn =>
      if nn.ub ≤ crit.best_lb then
        (WorkLoadR.starvation,
         { crit with
           fringe := Fr.clear crit.fringe
           open_by_layer := crit.open_by_layer.map (fun _ => 0) },
         barriers)
      else
        let depth := nn.path.length
        let layer := barriers.getD depth []
        let explore : Bool :=
          ((alookup layer nn.state).map (fun info =>
            if nn.value > info.theta ∨ (nn.value = info.theta ∧ info.explored = false)
            then true else false)).getD true
        let crit :=
          if explore then crit
          else { crit with open_by_layer := decAt crit.open_by_layer depth }
        if explore then
          let barriers := barriers.set depth
            (ainsert layer nn.state { theta := nn.value, explored := true })
          let crit := { crit with
            ongoing := crit.ongoing + 1
            explored := crit.explored + 1
            upper_bounds := crit.upper_bounds.set thread_id nn.ub
            open_by_layer := decAt crit.open_by_layer depth
            ongoing_by_layer := incAt crit.ongoing_by_layer depth }
          (WorkLoadR.workItem nn, crit, barriers)
        else
          if crit.fringe.heap.isEmpty then (WorkLoadR.starvation, crit, barriers)
          else
            match Fr.pop rank crit.fringe with
            | (some nn', fr') => workloadLoop rank thread_id fuel barriers { crit with fringe := fr' } nn'
            | (none, _) => (WorkLoadR.starvation, crit, barriers)

/-- The barrier-reclamation loop at the top of `get_workload`: while the
lowest active layer has no open and no ongoing nodes, clear its barrier
layer and advance.  The loop variable strictly increases and is bounded by
`nb_variables`, so fuel `nb_variables` is exact. -/
def reclaimLayers (nb_variables : Nat) :
    Nat → Critical σ × Barriers σ → Critical σ × Barriers σ
  | 0, p => p
  | fuel + 1, p =>
      let crit := p.1
      let barriers := p.2
      if crit.lowest_active_layer < nb_variables ∧
          crit.open_by_layer.getD crit.lowest_active_layer 0 +
            crit.ongoing_by_layer.getD crit.lowest_active_layer 0 = 0 then
        reclaimLayers nb_variables fuel
          ({ crit with lowest_active_layer := crit.lowest_active_layer + 1 },
           barriers.set crit.lowest_active_layer [])
      else p

/-- `get_workload`: reclaim inactive barrier layers, detect completion,
handle interruption, park on starvation, otherwise pop and filter
candidates through the barrier. -/
def getWorkload [DecidableEq σ] [Inhabited σ] (rank : σ → σ → Ordering) (nb_variables : Nat)
    (thread_id : Nat) (interrupt : Bool) (barriers : Barriers σ) (crit : Critical σ) :
    WorkLoadR σ × Critical σ × Barriers σ :=
  -- Can we clean up the barrier?
  let p := reclaimLayers nb_variables nb_variables (crit, barriers)
  let crit := p.1
  let barriers := p.2
  -- Are we done?
  if crit.ongoing = 0 ∧ crit.fringe.heap.isEmpty then
    (WorkLoadR.complete, { crit with best_ub := crit.best_lb }, barriers)
  -- Do we need to stop?
  else if crit.interrupted then
    (WorkLoadR.interruption, crit, barriers)
  else if interrupt then
    let best_ub :=
      if crit.ongoing > 0 then
        ((crit.upper_bounds.filter (fun x => decide (x ≠ IMAX))).max?).getD IMAX
      else
        (((Fr.pop rank crit.fringe).1).map (fun nn => nn.ub)).getD 0
    (WorkLoadR.interruption,
     { crit with interrupted := true, best_ub := best_ub, fringe := Fr.clear crit.fringe },
     barriers)
  -- Nothing to do yet? => wait for someone to post jobs
  else if crit.fringe.heap.isEmpty then
    (WorkLoadR.starvation, crit, barriers)
  else
    match Fr.pop rank crit.fringe with
    | (some nn, fr') =>
        workloadLoop rank thread_id (fr'.heap.length + 1) barriers { crit with fringe := fr' } nn
    | (none, _) => (WorkLoadR.starvation, crit, barriers)

/-- `process_one_node`: restricted compilation, incumbent update, then when
inexact a relaxed compilation whose cutset is drained onto the fringe.  The
shared barrier store is threaded through the DD explicitly. -/
def processOneNode [DecidableEq σ] [Inhabited σ] (problem : Problem σ)
    (relaxation : Relaxation σ) (rank : σ → σ → Ordering)
    (width_heu : σ → Nat) (cutset_type : CutsetType) (barriers : Barriers σ)
    (crit : Critical σ) (node : SubProblem σ) : Critical σ × Barriers σ × Nat :=
  let mdd := Barrier.new barriers cutset_type
  let node_ub := node.ub
  let best_lb := crit.best_lb
  if node_ub ≤ best_lb then (crit, barriers, 0)
  else
    let width := width_heu node.state
    let inputR : CompilationInput σ := {
      comp_type := CompilationType.Restricted, max_width := width,
      problem := problem, relaxation := relaxation, ranking := rank,
      residual := node, best_lb := best_lb }
    let mdd := Barrier.compile inputR mdd
    let explored_dd := mdd.explored
    let crit := maybeUpdateBest (Barrier.bestValue mdd) (Barrier.bestSolution mdd) crit
    if mdd.exact_ then (crit, mdd.barriers, explored_dd)
    else
      let best_lb := crit.best_lb
      let inputX := { inputR with comp_type := CompilationType.Relaxed, best_lb := best_lb }
      let mdd := Barrier.compile inputX mdd
      let explored_dd := explored_dd + mdd.explored
      if mdd.exact_ then
        (maybeUpdateBest (Barrier.bestValue mdd) (Barrier.bestSolution mdd) crit,
         mdd.barriers, explored_dd)
      else
        let r := enqueueCutset rank mdd crit node_ub
        (r.2, r.1.barriers, explored_dd)

/-- Specification of the sub-problems that `enqueue_cutset` actually pushes:
the drained cutset nodes, bounds tightened by the processed node's bound,
restricted to those still beating the incumbent lower bound. -/
def enqueuedList [DecidableEq σ] [Inhabited σ] (dd : Barrier σ) (best_lb ub : Int) :
    List (SubProblem σ) :=
  (((Barrier.drainCutset dd).1).map (fun c => { c with ub := min ub c.ub })).filter
    (fun c => decide (c.ub > best_lb))

end BarrierParallelSolver

/-! ## Concrete problem instances

Small, fully admissible problem instances used to exercise the embedding on
real solver runs. -/

/-- States of the negative-reward scenario: (depth, tag).  Every layer's
states share their depth, so `next_variable` is insensitive to the
unspecified hash-map iteration order of the source. -/
abbrev NState := Nat × Nat

/-- The negative-reward scenario: three variables; the root branches into
two depth-1 states which funnel to depth 2; the depth-2 state with tag 0
dead-ends, every other depth-2 state reaches the terminal layer at cost
-100.  The estimates are admissible upper bounds on the remaining reward
(the remaining reward of a dead end being -infinity). -/
def negProblem : Problem NState := {
  nb_variables := 3
  initial_state := (0, 0)
  initial_value := 0
  next_variable := fun ss =>
    match ss with
    | [] => none
    | (d, _) :: _ => if d < 3 then some ⟨d⟩ else none
  for_each_in_domain := fun var s =>
    if s.1 = 0 then [⟨var, 0⟩, ⟨var, 1⟩]
    else if s.1 = 2 ∧ s.2 = 0 then []
    else [⟨var, 0⟩]
  transition := fun s dec => (s.1 + 1, if s.1 = 0 then dec.value.toNat else s.2)
  transition_cost := fun s _ => if s.1 = 2 then -100 else 0
  estimate := fun s => if s.1 = 0 then 0 else if s.1 = 3 then 0 else -100 }

/-- Merging keeps the (shared) depth under a fresh tag 99; the true reward
from the merged state (-100) dominates each merged input's remaining reward
(-100 or -infinity), so the relaxation is admissible. -/
def negRelaxation : Relaxation NState := {
  merge := fun ss => match ss with | [] => (0, 0) | (d, _) :: _ => (d, 99)
  relax := fun _ _ _ _ cost => cost }

/-- A total ranking preferring smaller tags (injective on every layer). -/
def negRank (a b : NState) : Ordering := compare b.2 a.2

/-- The solver trace of the scenario with one thread, width 1, LEL cutset:
construction, root push, first workload, then processing of the root node. -/
def negCrit0 : Critical NState := BarrierParallelSolver.newCritical negProblem 1

def negBarriers0 : Barriers NState := BarrierParallelSolver.newBarriers negProblem

def negCrit1 : Critical NState := BarrierParallelSolver.solverInit negProblem negRank negCrit0

def negGW : WorkLoadR NState × Critical NState × Barriers NState :=
  BarrierParallelSolver.getWorkload negRank 3 0 false negBarriers0 negCrit1

def negPopped : SubProblem NState :=
  match negGW.1 with
  | WorkLoadR.workItem n => n
  | _ => default

/-- The critical record and barrier store after the root node has been fully
processed (restricted pass, relaxed pass, cutset enqueued). -/
def negFinal : Critical NState × Barriers NState × Nat :=
  BarrierParallelSolver.processOneNode negProblem negRelaxation negRank
    (fun _ => 1) CutsetType.LastExactLayer negGW.2.2 negGW.2.1 negPopped

/-- The restricted compilation performed inside `negFinal`. -/
def negInputR : CompilationInput NState := {
  comp_type := CompilationType.Restricted, max_width := 1,
  problem := negProblem, relaxation := negRelaxation, ranking := negRank,
  residual := negPopped, best_lb := negGW.2.1.best_lb }

def negDDR : Barrier NState :=
  Barrier.compile negInputR (Barrier.new negGW.2.2 CutsetType.LastExactLayer)

/-- The relaxed compilation performed inside `negFinal` (the incumbent is
still isize::MIN after the restricted pass, which finds no terminal). -/
def negInputX : CompilationInput NState :=
  { negInputR with comp_type := CompilationType.Relaxed }

def negDDX : Barrier NState := Barrier.compile negInputX negDDR

/-- A zero-layer problem: `next_variable` is immediately none, so a
compilation only ever builds the root node. -/
def unitProblem : Problem Nat := {
  nb_variables := 0, initial_state := 0, initial_value := -1,
  next_variable := fun _ => none,
  for_each_in_domain := fun _ _ => [],
  transition := fun s _ => s, transition_cost := fun _ _ => 0,
  estimate := fun _ => 0 }

def unitRelax : Relaxation Nat := { merge := fun _ => 0, relax := fun _ _ _ _ c => c }

/-- The residual of scenario C7: the solver's own root sentinel
`ub = isize::MAX` together with a negative accumulated value. -/
def c7Input : CompilationInput Nat := {
  comp_type := CompilationType.Exact, max_width := 1,
  problem := unitProblem, relaxation := unitRelax, ranking := fun _ _ => Ordering.eq,
  residual := { state := 0, value := -1, path := [], ub := IMAX }, best_lb := IMIN }

def c7DD : Barrier Nat :=
  Barrier.compile c7Input
    (Barrier.new (BarrierParallelSolver.newBarriers unitProblem) CutsetType.LastExactLayer)

/-- One variable, rough upper bound isize::MIN everywhere, positive root
value. -/
def minEstProblem : Problem Nat := {
  nb_variables := 1, initial_state := 0, initial_value := 1,
  next_variable := fun ss =>
    match ss with
    | [] => none
    | s :: _ => if s = 0 then some ⟨0⟩ else none,
  for_each_in_domain := fun var _ => [⟨var, 0⟩],
  transition := fun s _ => s + 1, transition_cost := fun _ _ => 0,
  estimate := fun _ => IMIN }

def c8Input : CompilationInput Nat := {
  comp_type := CompilationType.Exact, max_width := 10,
  problem := minEstProblem, relaxation := unitRelax, ranking := fun _ _ => Ordering.eq,
  residual := { state := 0, value := 1, path := [], ub := IMAX }, best_lb := IMIN }

def c8DD : Barrier Nat :=
  Barrier.compile c8Input
    (Barrier.new (BarrierParallelSolver.newBarriers minEstProblem) CutsetType.LastExactLayer)

/-- A frontier with an empty heap but non-trivial leftover storage, as left
behind by earlier pushes and pops. -/
def c10Fr : Fr Nat :=
  { states := [], nodes := [{ state := 7, value := 1, path := [], ub := 5 }],
    pos := [0], heap := [], recycle_bin := [0] }

/-- A one-node DD over `Nat` with a negative root value, fed to the C8
witness. -/
def c8WitnessDD : Barrier Nat :=
  { Barrier.new (BarrierParallelSolver.newBarriers minEstProblem) CutsetType.LastExactLayer with
    nodes := [{ state := 0, value := -5, best := none, inbound := none, depth := 0,
                value_bot := IMIN, theta := IMAX, rub := IMAX, flags := NodeFlags.newExact }],
    next_l := [(0, 0)] }

/-- The critical record just before the cutset of the scenario's relaxed DD
is drained (after `maybe_update_best` of the restricted pass). -/
def negCritAtDrain : Critical NState :=
  BarrierParallelSolver.maybeUpdateBest (Barrier.bestValue negDDR)
    (Barrier.bestSolution negDDR) negGW.2.1

/-- A two-node single-layer DD fed to the C9 witness. -/
def c9WitnessDD : Barrier NState :=
  { Barrier.new (BarrierParallelSolver.newBarriers negProblem) CutsetType.LastExactLayer with
    nodes := [
      { state := (2, 0), value := 0, best := none, inbound := none, depth := 2,
        value_bot := IMIN, theta := IMAX, rub := IMAX, flags := NodeFlags.newExact },
      { state := (2, 1), value := 0, best := none, inbound := none, depth := 2,
        value_bot := IMIN, theta := IMAX, rub := IMAX, flags := NodeFlags.newExact }] }

/-- A node ranking over `Nat` states, fed to the C5 witness. -/
def c5Rank : Nat → Nat → Ordering := fun a b => compare a b

/-- Three concrete pushes, two of which share state `5` with crossing
value/ub improvements, fed to the C5 witness. -/
def c5Pushes : List (SubProblem Nat) :=
  [{ state := 5, value := 1, path := [], ub := 10 },
   { state := 5, value := 3, path := [], ub := 2 },
   { state := 7, value := 0, path := [], ub := 0 }]

/-!
# Theorems

All claim theorems, their witnesses and counterexamples, and the helper
lemmas they rely on.
-/

theorem alookup_ainsert_self [DecidableEq σ] (l : List (σ × β)) (s : σ) (v : β) :
    alookup (ainsert l s v) s = some v := by
  induction l with
  | nil => simp [ainsert, alookup]
  | cons hd t ih =>
    obtain ⟨k, w⟩ := hd
    by_cases h : k = s <;> simp [ainsert, alookup, h, ih]

theorem alookup_ainsert_ne [DecidableEq σ] (l : List (σ × β)) (s s' : σ) (v : β)
    (h : s' ≠ s) : alookup (ainsert l s v) s' = alookup l s' := by
  induction l with
  | nil => simp [ainsert, alookup, Ne.symm h]
  | cons hd t ih =>
    obtain ⟨k, w⟩ := hd
    by_cases hk : k = s
    · subst hk
      simp [ainsert, alookup, Ne.symm h]
    · simp only [ainsert, if_neg hk, alookup]
      by_cases hk' : k = s' <;> simp [hk', ih]

theorem getD_set_self (l : List α) (i : Nat) (x d : α) (h : i < l.length) :
    (l.set i x).getD i d = x := by
  simp [List.getD_eq_getElem?_getD, List.getElem?_set_self', h]

theorem getD_set_ne (l : List α) (i j : Nat) (x d : α) (h : i ≠ j) :
    (l.set i x).getD j d = l.getD j d := by
  simp [List.getD_eq_getElem?_getD, List.getElem?_set_ne h]

theorem getD_append_length (l : List α) (x d : α) : (l ++ [x]).getD l.length d = x := by
  simp [List.getD_eq_getElem?_getD]

theorem getD_append_lt (l : List α) (j : Nat) (x d : α) (h : j < l.length) :
    (l ++ [x]).getD j d = l.getD j d := by
  simp [List.getD_eq_getElem?_getD, List.getElem?_append, h]

/-- An invariant is preserved by a left fold whose every step preserves it. -/
theorem foldl_invariant {β : Type v} {α : Type u} (P : β → Prop) (f : β → α → β)
    (l : List α) (b : β) (hb : P b) (hf : ∀ b a, a ∈ l → P b → P (f b a)) :
    P (l.foldl f b) := by
  induction l generalizing b with
  | nil => exact hb
  | cons x t ih =>
    exact ih (f b x) (hf b x (List.mem_cons_self x t) hb)
      (fun b' a ha => hf b' a (List.mem_cons_of_mem x ha))

/-- C10: popping an empty `NoDupFrontier` returns `none` and leaves every
backing structure (state map, nodes, positions, heap, recycle bin)
untouched. -/
theorem noDup_pop_empty [DecidableEq σ] [Inhabited σ] (rank : σ → σ → Ordering) (fr : Fr σ)
    (h : fr.heap = []) : Fr.pop rank fr = (none, fr) := by
  unfold Fr.pop Fr.isEmpty
  rw [h]
  simp

theorem noDup_pop_empty_witness :
    c10Fr.heap = [] ∧ Fr.pop (fun _ _ => Ordering.eq) c10Fr = (none, c10Fr) :=
  ⟨rfl, noDup_pop_empty (fun _ _ => Ordering.eq) c10Fr rfl⟩

/-- C7 (code bug): the root node's rough upper bound is computed by the
source with a PLAIN subtraction `input.residual.ub - root_v`.  At the
solver's own root sentinel `ub = isize::MAX` with the negative residual
value `-1` the exact difference `2^63` leaves the `isize` range: the
compiled root carries the wrapped value `isize::MIN` where saturating
arithmetic (promised by the spec for every value computation of the
compiler) yields `isize::MAX`. -/
theorem root_rub_is_not_saturating :
    c7Input.residual.ub = IMAX ∧ c7Input.residual.value = -1 ∧
    c7Input.residual.value ≤ c7Input.residual.ub ∧
    (Barrier.getNode c7DD 0).rub = wrapSub IMAX (-1) ∧
    (Barrier.getNode c7DD 0).rub = IMIN ∧
    satSub IMAX (-1) = IMAX ∧
    (IMIN : Int) ≠ IMAX := by
  refine ⟨rfl, rfl, by decide, by decide, by decide, by decide, by decide⟩

theorem satAdd_IMIN_of_nonpos (v : Int) (hv : v ≤ 0) : satAdd IMIN v = IMIN := by
  unfold satAdd IMIN IMAX
  rw [min_eq_right (by omega), max_eq_left (by omega)]

theorem getNode_updateNode_self [Inhabited σ] (dd : Barrier σ) (id : Nat)
    (f : Node σ → Node σ) (h : id < dd.nodes.length) :
    Barrier.getNode (Barrier.updateNode dd id f) id = f (Barrier.getNode dd id) := by
  unfold Barrier.getNode Barrier.updateNode
  exact getD_set_self _ _ _ _ h

theorem getNode_updateNode_ne [Inhabited σ] (dd : Barrier σ) (i j : Nat)
    (f : Node σ → Node σ) (h : i ≠ j) :
    Barrier.getNode (Barrier.updateNode dd i f) j = Barrier.getNode dd j := by
  unfold Barrier.getNode Barrier.updateNode
  exact getD_set_ne _ _ _ _ _ h

/-- `try_update_barrier` only ever writes the shared barrier store: every
other component of the DD is untouched. -/
theorem tryUpdateBarrier_only_barriers [DecidableEq σ] (dd : Barrier σ) (depth : Nat)
    (state : σ) (theta : Int) (explored : Bool) :
    ∃ bs, Barrier.tryUpdateBarrier dd depth state theta explored = { dd with barriers := bs } := by
  simp only [Barrier.tryUpdateBarrier]
  split
  · split
    · exact ⟨dd.barriers, rfl⟩
    · split
      · exact ⟨_, rfl⟩
      · exact ⟨dd.barriers, rfl⟩
  · split
    · exact ⟨_, rfl⟩
    · exact ⟨dd.barriers, rfl⟩

theorem tryUpdateBarrier_edges [DecidableEq σ] {dd : Barrier σ} {depth : Nat} {state : σ}
    {theta : Int} {explored : Bool} :
    (Barrier.tryUpdateBarrier dd depth state theta explored).edges = dd.edges := by
  obtain ⟨bs, h⟩ := tryUpdateBarrier_only_barriers dd depth state theta explored
  rw [h]

theorem tryUpdateBarrier_next_l [DecidableEq σ] {dd : Barrier σ} {depth : Nat} {state : σ}
    {theta : Int} {explored : Bool} :
    (Barrier.tryUpdateBarrier dd depth state theta explored).next_l = dd.next_l := by
  obtain ⟨bs, h⟩ := tryUpdateBarrier_only_barriers dd depth state theta explored
  rw [h]

theorem tryUpdateBarrier_explored [DecidableEq σ] {dd : Barrier σ} {depth : Nat} {state : σ}
    {theta : Int} {explored : Bool} :
    (Barrier.tryUpdateBarrier dd depth state theta explored).explored = dd.explored := by
  obtain ⟨bs, h⟩ := tryUpdateBarrier_only_barriers dd depth state theta explored
  rw [h]

/-- C8 (amended): in the branching step a node whose rough upper bound is
`isize::MIN` generates no child, and is not counted as explored, PROVIDED
its accumulated value is non-positive (so that the saturated
`ub = MIN ⊕ value` stays at `isize::MIN`, which never strictly beats the
incumbent); with a positive value and `best_lb = isize::MIN` the node does
branch (see the counterexample). -/
theorem expandNode_min_estimate_no_children [DecidableEq σ] [Inhabited σ]
    (input : CompilationInput σ) (var : Variable) (depth : Nat) (dd : Barrier σ)
    (node_id : Nat)
    (hest : input.problem.estimate (Barrier.getNode dd node_id).state = IMIN)
    (hval : (Barrier.getNode dd node_id).value ≤ 0)
    (hid : node_id < dd.nodes.length)
    (hlb : IMIN ≤ input.best_lb) :
    (Barrier.expandNode input var depth dd node_id).edges = dd.edges ∧
    (Barrier.expandNode input var depth dd node_id).next_l = dd.next_l ∧
    (Barrier.expandNode input var depth dd node_id).explored = dd.explored := by
  simp only [Barrier.expandNode, hest]
  rw [getNode_updateNode_self _ _ _ hid]
  split
  next hcond =>
    exfalso
    have hcond' : satAdd IMIN (Barrier.getNode dd node_id).value > input.best_lb := hcond
    rw [satAdd_IMIN_of_nonpos _ hval] at hcond'
    omega
  next =>
    split
    · exact ⟨tryUpdateBarrier_edges .., tryUpdateBarrier_next_l .., tryUpdateBarrier_explored ..⟩
    · exact ⟨rfl, rfl, rfl⟩

theorem expandNode_min_estimate_no_children_witness :
    (Barrier.expandNode c8Input ⟨0⟩ 0 c8WitnessDD 0).edges = c8WitnessDD.edges ∧
    (Barrier.expandNode c8Input ⟨0⟩ 0 c8WitnessDD 0).next_l = c8WitnessDD.next_l ∧
    (Barrier.expandNode c8Input ⟨0⟩ 0 c8WitnessDD 0).explored = c8WitnessDD.explored :=
  expandNode_min_estimate_no_children c8Input ⟨0⟩ 0 c8WitnessDD 0 (by decide) (by decide)
    (by decide) (by decide)

theorem mem_insertSorted (le : α → α → Bool) (x : α) (l : List α) (y : α) :
    y ∈ Barrier.insertSorted le x l ↔ y = x ∨ y ∈ l := by
  induction l with
  | nil => simp [Barrier.insertSorted]
  | cons z t ih =>
    simp only [Barrier.insertSorted]
    split
    · simp [List.mem_cons]
    · simp only [List.mem_cons, ih]
      tauto

theorem mem_sortBy (le : α → α → Bool) (l : List α) (y : α) :
    y ∈ Barrier.sortBy le l ↔ y ∈ l := by
  induction l with
  | nil => simp [Barrier.sortBy]
  | cons z t ih =>
    simp only [Barrier.sortBy, mem_insertSorted, List.mem_cons, ih]

theorem updateNode_nodes_length [Inhabited σ] (dd : Barrier σ) (m : Nat)
    (f : Node σ → Node σ) :
    (Barrier.updateNode dd m f).nodes.length = dd.nodes.length := by
  simp only [Barrier.updateNode, List.length_set]

theorem getNode_updateNode_flags [Inhabited σ] (dd : Barrier σ) (m j : Nat)
    (f : Node σ → Node σ) (hf : ∀ n, (f n).flags = n.flags) :
    (Barrier.getNode (Barrier.updateNode dd m f) j).flags = (Barrier.getNode dd j).flags := by
  by_cases hj : m = j
  · subst hj
    by_cases hm : m < dd.nodes.length
    · rw [getNode_updateNode_self _ _ _ hm, hf]
    · unfold Barrier.getNode Barrier.updateNode
      rw [List.set_eq_of_length_le (by omega)]
  · rw [getNode_updateNode_ne _ _ _ _ hj]

theorem getNode_append_self [Inhabited σ] (dd : Barrier σ) (x : Node σ) :
    Barrier.getNode { dd with nodes := dd.nodes ++ [x] } dd.nodes.length = x :=
  getD_append_length _ _ _

theorem allocMerged_snd [Inhabited σ] (dd : Barrier σ) (merged : σ) (dpth : Nat) :
    (Barrier.allocMerged dd merged dpth).2 = dd.nodes.length := rfl

theorem allocMerged_fst_len [Inhabited σ] (dd : Barrier σ) (merged : σ) (dpth : Nat) :
    (Barrier.allocMerged dd merged dpth).1.nodes.length = dd.nodes.length + 1 := by
  simp [Barrier.allocMerged]

theorem getNode_allocMerged [Inhabited σ] (dd : Barrier σ) (merged : σ) (dpth : Nat) :
    ((fun (n : Node σ) => { n with flags := n.flags.setRelaxed true })
        (Barrier.getNode (Barrier.allocMerged dd merged dpth).1 dd.nodes.length)).flags
      = NodeFlags.newRelaxed := by
  have h : Barrier.getNode (Barrier.allocMerged dd merged dpth).1 dd.nodes.length
      = ({ state := merged, value := IMIN, best := none, inbound := none,
           depth := dpth, value_bot := IMIN, theta := IMAX, rub := IMAX,
           flags := NodeFlags.newRelaxed } : Node σ) := by
    unfold Barrier.getNode Barrier.allocMerged
    exact getD_append_length _ _ _
  rw [h]
  rfl

theorem relaxCollectLEL_nodes_length [Inhabited σ] (dd : Barrier σ) :
    (Barrier.relaxCollectLEL dd).nodes.length = dd.nodes.length := by
  unfold Barrier.relaxCollectLEL
  split
  · refine foldl_invariant (fun (d : Barrier σ) => d.nodes.length = dd.nodes.length)
      _ _ _ rfl (fun d a _ h => ?_)
    simp only [Barrier.updateNode, List.length_set]
    exact h
  · rfl

theorem relaxRedirectEdge_len_flags [DecidableEq σ] [Inhabited σ] (input : CompilationInput σ)
    (merged : σ) (m drop_id : Nat) (dd : Barrier σ) (eid : Nat) (j : Nat) :
    (Barrier.relaxRedirectEdge input merged m drop_id dd eid).nodes.length = dd.nodes.length ∧
    (Barrier.getNode (Barrier.relaxRedirectEdge input merged m drop_id dd eid) j).flags
      = (Barrier.getNode dd j).flags := by
  simp only [Barrier.relaxRedirectEdge]
  split
  · constructor
    · simp only [updateNode_nodes_length]
    · refine (getNode_updateNode_flags _ _ _ _ ?_).trans
        ((getNode_updateNode_flags _ _ _ _ ?_).trans rfl)
      · intro n
        rfl
      · intro n
        rfl
  · constructor
    · simp only [updateNode_nodes_length]
    · refine (getNode_updateNode_flags _ _ _ _ ?_).trans rfl
      intro n
      rfl

theorem relaxDropNode_len_flags [DecidableEq σ] [Inhabited σ] (input : CompilationInput σ)
    (merged : σ) (m : Nat) (dd : Barrier σ) (drop_id : Nat) (hne : drop_id ≠ m) :
    (Barrier.relaxDropNode input merged m dd drop_id).nodes.length = dd.nodes.length ∧
    (Barrier.getNode (Barrier.relaxDropNode input merged m dd drop_id) m).flags
      = (Barrier.getNode dd m).flags := by
  unfold Barrier.relaxDropNode
  refine foldl_invariant
    (fun (d : Barrier σ) => d.nodes.length = dd.nodes.length ∧
      (Barrier.getNode d m).flags = (Barrier.getNode dd m).flags) _ _ _
    ⟨updateNode_nodes_length dd drop_id _,
     congrArg Node.flags (getNode_updateNode_ne dd drop_id m _ hne)⟩
    (fun d a _ hP =>
      ⟨(relaxRedirectEdge_len_flags input merged m drop_id d a m).1.trans hP.1,
       (relaxRedirectEdge_len_flags input merged m drop_id d a m).2.trans hP.2⟩)

theorem relaxCore_width_one [DecidableEq σ] [Inhabited σ] (input : CompilationInput σ)
    (dd : Barrier σ) (curr_l : List Nat)
    (hw : input.max_width = 1)
    (hids : ∀ id ∈ curr_l, id < dd.nodes.length) :
    (Barrier.relaxCore input dd curr_l).2 = [dd.nodes.length] ∧
    (Barrier.getNode (Barrier.relaxCore input dd curr_l).1 dd.nodes.length).flags
      = NodeFlags.newRelaxed := by
  simp only [Barrier.relaxCore, hw, Nat.sub_self, List.take_zero, List.drop_zero,
    List.find?_nil, allocMerged_snd]
  refine ⟨rfl, ?_⟩
  refine (foldl_invariant
    (fun (d : Barrier σ) => d.nodes.length = dd.nodes.length + 1 ∧
      (Barrier.getNode d dd.nodes.length).flags = NodeFlags.newRelaxed)
    _ _ _ ⟨?_, ?_⟩ ?_).2
  · rw [updateNode_nodes_length, allocMerged_fst_len]
  · rw [getNode_updateNode_self _ _ _ (by rw [allocMerged_fst_len]; omega)]
    rw [getNode_allocMerged]
  · intro d a ha hP
    have ha' : a < dd.nodes.length := hids a ((mem_sortBy _ _ _).mp ha)
    refine ⟨(relaxDropNode_len_flags input _ _ d a (by omega)).1.trans hP.1, ?_⟩
    rw [(relaxDropNode_len_flags input _ _ d a (by omega)).2, hP.2]

/-- C9 (amended): whenever the relaxed width enforcement actually runs with
`max_width = 1` (which requires the layer to be strictly below
`root_depth + 1` and to hold more than one node), the layer that comes out
of `relax` is exactly one node, and that node is the freshly merged node,
Relaxed-flagged and not Deleted.  The first layer below the root is never
enforced (`relax` only runs at `depth > root_depth + 1`), so it may keep
several unmerged nodes: see the counterexample. -/
theorem relax_width_one [DecidableEq σ] [Inhabited σ] (input : CompilationInput σ)
    (dd : Barrier σ) (curr_l : List Nat)
    (hw : input.max_width = 1)
    (hids : ∀ id ∈ curr_l, id < dd.nodes.length) :
    ∃ merged_id,
      (Barrier.relax input dd curr_l).2 = [merged_id] ∧
      (Barrier.getNode (Barrier.relax input dd curr_l).1 merged_id).flags.isRelaxed = true ∧
      (Barrier.getNode (Barrier.relax input dd curr_l).1 merged_id).flags.isDeleted = false := by
  have hlen : ({ Barrier.relaxCollectLEL dd with approximate := true } : Barrier σ).nodes.length
      = dd.nodes.length := relaxCollectLEL_nodes_length dd
  have h := relaxCore_width_one input
    ({ Barrier.relaxCollectLEL dd with approximate := true } : Barrier σ) curr_l hw
    (fun id hid => by
      rw [hlen]
      exact hids id hid)
  refine ⟨({ Barrier.relaxCollectLEL dd with approximate := true } : Barrier σ).nodes.length,
    ?_, ?_, ?_⟩
  · simp only [Barrier.relax]
    exact h.1
  · simp only [Barrier.relax]
    rw [h.2]
    rfl
  · simp only [Barrier.relax]
    rw [h.2]
    rfl

/-- C8 counterexample: a compilation in which `estimate` returns
`isize::MIN` everywhere, the root value is `1 > 0` and `best_lb` is
`isize::MIN`.  The branching step computes
`ub = saturating_add(isize::MIN, 1) > isize::MIN = best_lb` and therefore
DOES invoke `for_each_in_domain` on the root and generates its child:
the compiled DD has one edge, one explored node and a depth-1 node. -/
theorem min_estimate_still_branches :
    (minEstProblem.estimate 0 = IMIN) ∧ c8Input.best_lb = IMIN ∧
    (Barrier.getNode c8DD 0).value = 1 ∧
    c8DD.edges.length = 1 ∧ c8DD.explored = 1 ∧ c8DD.nodes.length = 2 := by
  refine ⟨rfl, rfl, by decide, by decide, by decide, by decide⟩


theorem relax_width_one_witness :
    ∃ merged_id, (Barrier.relax negInputX c9WitnessDD [0, 1]).2 = [merged_id] ∧
      (Barrier.getNode (Barrier.relax negInputX c9WitnessDD [0, 1]).1 merged_id).flags.isRelaxed
        = true ∧
      (Barrier.getNode (Barrier.relax negInputX c9WitnessDD [0, 1]).1 merged_id).flags.isDeleted
        = false :=
  relax_width_one negInputX c9WitnessDD [0, 1] (by decide)
    (fun id hid => by
      simp only [c9WitnessDD] at *
      simp only [List.mem_cons, List.not_mem_nil, or_false] at hid
      rcases hid with h | h <;> subst h <;> decide)

/-- C9 counterexample: the negative-reward scenario is a Relaxed compilation
with `max_width = 1` whose root sits at depth 0, yet the compiled DD keeps
TWO nodes at depth 1 (the first layer below the root), neither Deleted nor
Relaxed — `relax` only runs at `depth > root_depth + 1`, so the first layer
below the root is never merged. -/
theorem width_one_first_layer_not_merged :
    negInputX.comp_type = CompilationType.Relaxed ∧
    negInputX.max_width = 1 ∧
    negDDX.root_pa.length = 0 ∧
    (negDDX.nodes.filter (fun n => decide (n.depth = 1) && !n.flags.isDeleted)).length = 2 ∧
    ((negDDX.nodes.filter (fun n => decide (n.depth = 1) && !n.flags.isDeleted)).all
      (fun n => !n.flags.isRelaxed)) = true := by
  refine ⟨rfl, by decide, by decide, by decide, by decide⟩

/-- The guarded accumulating fold of `_drain_cutset` is a `filterMap`. -/
theorem foldl_guard_append {α β : Type} (p : α → Bool) (g : α → β) (l : List α)
    (acc : List β) :
    l.foldl (fun acc a => if p a then acc ++ [g a] else acc) acc
      = acc ++ l.filterMap (fun a => if p a then some (g a) else none) := by
  induction l generalizing acc with
  | nil => simp
  | cons x t ih =>
    simp only [List.foldl_cons, List.filterMap_cons]
    by_cases hp : p x
    · simp only [hp, if_pos, ih]
      simp
    · simp only [hp, if_neg, ih]
      simp [hp]

/-- C1 (amended): when the DD has a best terminal node with value `b`,
draining the cutset yields, for every still-Marked cutset node, a
sub-problem with that node's state, its value, its best path, and
`ub = min(min(value ⊕ rub, value ⊕ value_bot), b)` — the first clamp is the
DD's OWN best value `b`, not the solver's incumbent lower bound — and the
drain empties the cutset. -/
theorem drainCutset_spec [DecidableEq σ] [Inhabited σ] (dd : Barrier σ) (b : Int)
    (h : Barrier.bestValue dd = some b) :
    (Barrier.drainCutset dd).1 = dd.cutset.filterMap (fun node_id =>
        if (Barrier.getNode dd node_id).flags.isMarked then
          some { state := (Barrier.getNode dd node_id).state,
                 value := (Barrier.getNode dd node_id).value,
                 path := Barrier.bestPath dd node_id,
                 ub := min (min (satAdd (Barrier.getNode dd node_id).value
                                        (Barrier.getNode dd node_id).rub)
                                (satAdd (Barrier.getNode dd node_id).value
                                        (Barrier.getNode dd node_id).value_bot)) b }
        else none) ∧
    (Barrier.drainCutset dd).2.cutset = [] := by
  unfold Barrier.drainCutset
  rw [h]
  constructor
  · exact (foldl_guard_append (fun node_id => (Barrier.getNode dd node_id).flags.isMarked)
      (fun node_id =>
        ({ state := (Barrier.getNode dd node_id).state,
           value := (Barrier.getNode dd node_id).value,
           path := Barrier.bestPath dd node_id,
           ub := min (min (satAdd (Barrier.getNode dd node_id).value
                                  (Barrier.getNode dd node_id).rub)
                          (satAdd (Barrier.getNode dd node_id).value
                                  (Barrier.getNode dd node_id).value_bot)) b } : SubProblem σ))
      dd.cutset []).trans (by simp)
  · rfl

theorem drainCutset_spec_witness :
    Barrier.bestValue negDDX = some (-100) ∧
    (Barrier.drainCutset negDDX).1 = negDDX.cutset.filterMap (fun node_id =>
        if (Barrier.getNode negDDX node_id).flags.isMarked then
          some { state := (Barrier.getNode negDDX node_id).state,
                 value := (Barrier.getNode negDDX node_id).value,
                 path := Barrier.bestPath negDDX node_id,
                 ub := min (min (satAdd (Barrier.getNode negDDX node_id).value
                                        (Barrier.getNode negDDX node_id).rub)
                                (satAdd (Barrier.getNode negDDX node_id).value
                                        (Barrier.getNode negDDX node_id).value_bot)) (-100) }
        else none) ∧
    (Barrier.drainCutset negDDX).2.cutset = [] :=
  ⟨by decide, (drainCutset_spec negDDX (-100) (by decide)).1, (drainCutset_spec negDDX (-100)
    (by decide)).2⟩

/-- C1 counterexample: in the negative-reward scenario the solver's best
known lower bound at drain time is still `isize::MIN`, while the drained
sub-problem of cutset node 1 carries `ub = -100` — the DD's best value
clamped formula — whereas the claimed formula
`min(best_lb_global, value ⊕ rub, value ⊕ value_bot)` evaluates to
`isize::MIN ≠ -100`. -/
theorem drainCutset_uses_dd_best_value_not_best_lb :
    negCritAtDrain.best_lb = IMIN ∧
    Barrier.bestValue negDDX = some (-100) ∧
    (Barrier.getNode negDDX 1).flags.isMarked = true ∧
    ((Barrier.drainCutset negDDX).1.getD 0 default).state = (Barrier.getNode negDDX 1).state ∧
    ((Barrier.drainCutset negDDX).1.getD 0 default).ub = -100 ∧
    min (min (satAdd (Barrier.getNode negDDX 1).value (Barrier.getNode negDDX 1).rub)
             (satAdd (Barrier.getNode negDDX 1).value (Barrier.getNode negDDX 1).value_bot))
        negCritAtDrain.best_lb = IMIN ∧
    ((-100 : Int) ≠ IMIN) := by
  refine ⟨by decide, by decide, by decide, by decide, by decide, by decide, by decide⟩

/-- A guarded fold over transformed elements is a fold over the filtered map. -/
theorem foldl_tighten_filter {β : Type u} {γ : Type v} (f : γ → β → γ) (t : β → β)
    (q : β → Prop) [DecidablePred q] (l : List β) (acc : γ) :
    l.foldl (fun acc b => if q (t b) then f acc (t b) else acc) acc
      = ((l.map t).filter (fun b => decide (q b))).foldl f acc := by
  induction l generalizing acc with
  | nil => simp
  | cons x s ih =>
    simp only [List.foldl_cons, List.map_cons, List.filter_cons]
    by_cases hq : q (t x)
    · simp only [hq, if_pos, decide_eq_true hq, List.foldl_cons]
      exact ih (f acc (t x))
    · simp only [hq, if_neg, decide_eq_false hq]
      exact ih acc

/-- C2 (amended): the root sub-problem respects `ub ≥ value` (its bound is
the `isize::MAX` sentinel), and `enqueue_cutset` pushes exactly the drained
cutset sub-problems, bounds tightened by the processed node's bound, that
satisfy `ub > best_lb` at enqueue time — so `ub > best_lb` is the invariant
the gate maintains, while `ub ≥ value` can fail on pushed nodes (see the
counterexample, where a pushed node has `ub = -100 < 0 = value`). -/
theorem enqueueCutset_pushes_beat_best_lb [DecidableEq σ] [Inhabited σ]
    (rank : σ → σ → Ordering) (problem : Problem σ) (dd : Barrier σ) (crit : Critical σ)
    (ub : Int) (hinit : problem.initial_value ≤ IMAX) :
    (BarrierParallelSolver.rootNode problem).value ≤ (BarrierParallelSolver.rootNode problem).ub ∧
    (BarrierParallelSolver.enqueueCutset rank dd crit ub).2 =
      (BarrierParallelSolver.enqueuedList dd crit.best_lb ub).foldl
        (fun cr c => { cr with
          fringe := Fr.push rank cr.fringe c,
          open_by_layer := incAt cr.open_by_layer c.path.length }) crit ∧
    ∀ c ∈ BarrierParallelSolver.enqueuedList dd crit.best_lb ub, c.ub > crit.best_lb := by
  refine ⟨hinit, ?_, ?_⟩
  · exact foldl_tighten_filter
      (fun cr (c : SubProblem σ) => { cr with
        fringe := Fr.push rank cr.fringe c,
        open_by_layer := incAt cr.open_by_layer c.path.length })
      (fun c => { c with ub := min ub c.ub })
      (fun c => c.ub > crit.best_lb) (Barrier.drainCutset dd).1 crit
  · intro c hc
    simp only [BarrierParallelSolver.enqueuedList, List.mem_filter,
      decide_eq_true_eq] at hc
    exact hc.2

theorem enqueueCutset_pushes_beat_best_lb_witness :
    (BarrierParallelSolver.rootNode negProblem).value
      ≤ (BarrierParallelSolver.rootNode negProblem).ub ∧
    (BarrierParallelSolver.enqueueCutset negRank negDDX negCritAtDrain IMAX).2 =
      (BarrierParallelSolver.enqueuedList negDDX negCritAtDrain.best_lb IMAX).foldl
        (fun cr c => { cr with
          fringe := Fr.push negRank cr.fringe c,
          open_by_layer := incAt cr.open_by_layer c.path.length }) negCritAtDrain ∧
    ∀ c ∈ BarrierParallelSolver.enqueuedList negDDX negCritAtDrain.best_lb IMAX,
      c.ub > negCritAtDrain.best_lb :=
  enqueueCutset_pushes_beat_best_lb negRank negProblem negDDX negCritAtDrain IMAX (by decide)

/-- C2 counterexample: a full solver trace on the negative-reward scenario
(root pushed, popped through `get_workload`, processed by
`process_one_node`) ends with the frontier holding state (1,0) with
`value = 0` but `ub = -100`: the pushed sub-problem violates `ub ≥ value`,
because the drained `ub` is clamped by the negative DD best value while the
push gate only requires `ub > best_lb = isize::MIN`. -/
theorem frontier_holds_subproblem_with_ub_below_value :
    alookup negFinal.1.fringe.states ((1, 0) : NState) = some 0 ∧
    0 ∈ negFinal.1.fringe.heap ∧
    (negFinal.1.fringe.nodes.getD 0 default).state = (1, 0) ∧
    (negFinal.1.fringe.nodes.getD 0 default).value = 0 ∧
    (negFinal.1.fringe.nodes.getD 0 default).ub = -100 ∧
    ¬((negFinal.1.fringe.nodes.getD 0 default).ub
        ≥ (negFinal.1.fringe.nodes.getD 0 default).value) := by
  refine ⟨by decide, by decide, by decide, by decide, by decide, by decide⟩

/-- `try_update_barrier` as one conditional equation: skip below the last
exact layer, otherwise write exactly when the update condition holds. -/
theorem tryUpdateBarrier_eq [DecidableEq σ] (dd : Barrier σ) (depth : Nat) (state : σ)
    (theta : Int) (explored : Bool) :
    Barrier.tryUpdateBarrier dd depth state theta explored =
      if lelSkips dd depth then dd
      else if barrierUpdateWanted (dd.barriers.getD depth []) state theta explored then
        { dd with
          barriers := dd.barriers.set depth (ainsert (dd.barriers.getD depth []) state ⟨theta, explored⟩) }
      else dd := by
  simp only [Barrier.tryUpdateBarrier]
  rcases hct : dd.cutset_type with _ | _ <;> rcases hld : dd.lel_depth with _ | l <;>
    simp only [hct, hld, lelSkips] <;> try rfl
  by_cases hdl : depth > l
  · simp [hdl]
  · simp [hdl, barrierUpdateWanted]

/-- C4: `try_update_barrier(d, s, theta, explored)` leaves the barrier
untouched when the cutset policy is LastExactLayer, a last exact depth is
recorded and `d` is strictly below it; otherwise it overwrites the entry
for `s` in layer `d` with `{theta, explored}` exactly when the entry is
absent, or strictly improved, or equal with the explored bit flipping
false to true, leaving every other state of the layer and every other
layer unchanged; in every other case the whole DD is unchanged. -/
theorem tryUpdateBarrier_claim [DecidableEq σ] (dd : Barrier σ) (depth : Nat) (state : σ)
    (theta : Int) (explored : Bool) (hd : depth < dd.barriers.length) :
    (lelSkips dd depth = true →
      Barrier.tryUpdateBarrier dd depth state theta explored = dd) ∧
    (lelSkips dd depth = false →
      (barrierUpdateWanted (dd.barriers.getD depth []) state theta explored = true →
        alookup ((Barrier.tryUpdateBarrier dd depth state theta explored).barriers.getD
          depth []) state = some ⟨theta, explored⟩ ∧
        (∀ s', s' ≠ state →
          alookup ((Barrier.tryUpdateBarrier dd depth state theta explored).barriers.getD
            depth []) s' = alookup (dd.barriers.getD depth []) s') ∧
        (∀ d', d' ≠ depth →
          (Barrier.tryUpdateBarrier dd depth state theta explored).barriers.getD d' []
            = dd.barriers.getD d' []) ∧
        (∃ bs, Barrier.tryUpdateBarrier dd depth state theta explored
            = { dd with barriers := bs })) ∧
      (barrierUpdateWanted (dd.barriers.getD depth []) state theta explored = false →
        Barrier.tryUpdateBarrier dd depth state theta explored = dd)) := by
  constructor
  · intro hskip
    rw [tryUpdateBarrier_eq, if_pos hskip]
  · intro hns
    constructor
    · intro hupd
      rw [tryUpdateBarrier_eq, if_neg (by simp only [hns]; exact Bool.false_ne_true),
        if_pos hupd]
      refine ⟨?_, ?_, ?_, ⟨_, rfl⟩⟩
      · show alookup ((dd.barriers.set depth _).getD depth []) state = _
        rw [getD_set_self _ _ _ _ hd]
        exact alookup_ainsert_self _ _ _
      · intro s' hs'
        show alookup ((dd.barriers.set depth _).getD depth []) s' = _
        rw [getD_set_self _ _ _ _ hd]
        exact alookup_ainsert_ne _ _ _ _ hs'
      · intro d' hd'
        show (dd.barriers.set depth _).getD d' [] = _
        rw [getD_set_ne _ _ _ _ _ (Ne.symm hd')]
    · intro hnupd
      rw [tryUpdateBarrier_eq, if_neg (by simp only [hns]; exact Bool.false_ne_true),
        if_neg (by simp only [hnupd]; exact Bool.false_ne_true)]

/-- A DD whose barrier store has three layers, the middle one holding an
entry for state 4 with theta 10 not yet explored. -/
def c4WitnessDD : Barrier Nat :=
  { Barrier.new [[], [(4, { theta := 10, explored := false })], []] CutsetType.LastExactLayer with
    lel_depth := some 5 }

theorem tryUpdateBarrier_claim_witness :
    (lelSkips c4WitnessDD 1 = false) ∧
    (barrierUpdateWanted (c4WitnessDD.barriers.getD 1 []) 4 10 true = true) ∧
    (alookup ((Barrier.tryUpdateBarrier c4WitnessDD 1 4 10 true).barriers.getD 1 []) 4
      = some { theta := 10, explored := true } ∧
     (∀ s', s' ≠ 4 →
       alookup ((Barrier.tryUpdateBarrier c4WitnessDD 1 4 10 true).barriers.getD 1 []) s'
         = alookup (c4WitnessDD.barriers.getD 1 []) s') ∧
     (∀ d', d' ≠ 1 →
       (Barrier.tryUpdateBarrier c4WitnessDD 1 4 10 true).barriers.getD d' []
         = c4WitnessDD.barriers.getD d' []) ∧
     (∃ bs, Barrier.tryUpdateBarrier c4WitnessDD 1 4 10 true
         = { c4WitnessDD with barriers := bs })) :=
  ⟨by decide, by decide,
   ((tryUpdateBarrier_claim c4WitnessDD 1 4 10 true (by decide)).2 (by decide)).1 (by decide)⟩

/-- C3: one round of the pop-and-filter loop of `get_workload`, for a popped
candidate whose bound still beats the incumbent: the candidate is skipped
(the open counter of its layer is decremented and the next candidate is
popped — or Starvation is returned when the fringe has run dry) exactly
when the barrier holds a dominating entry; otherwise
`{theta = value, explored = true}` is inserted for its state at its depth
and the candidate is returned as the work item with the usual accounting. -/
theorem workloadLoop_candidate_filter [DecidableEq σ] [Inhabited σ]
    (rank : σ → σ → Ordering) (thread_id fuel : Nat) (barriers : Barriers σ)
    (crit : Critical σ) (nn : SubProblem σ)
    (hub : nn.ub > crit.best_lb) :
    (candidateSkipped (barriers.getD nn.path.length []) nn = false →
      BarrierParallelSolver.workloadLoop rank thread_id (fuel + 1) barriers crit nn =
        (WorkLoadR.workItem nn,
         { crit with
           ongoing := crit.ongoing + 1
           explored := crit.explored + 1
           upper_bounds := crit.upper_bounds.set thread_id nn.ub
           open_by_layer := decAt crit.open_by_layer nn.path.length
           ongoing_by_layer := incAt crit.ongoing_by_layer nn.path.length },
         barriers.set nn.path.length
           (ainsert (barriers.getD nn.path.length []) nn.state
             { theta := nn.value, explored := true }))) ∧
    (candidateSkipped (barriers.getD nn.path.length []) nn = true →
      BarrierParallelSolver.workloadLoop rank thread_id (fuel + 1) barriers crit nn =
        (let crit2 : Critical σ :=
          { crit with open_by_layer := decAt crit.open_by_layer nn.path.length }
         if crit2.fringe.heap.isEmpty then (WorkLoadR.starvation, crit2, barriers)
         else
           match Fr.pop rank crit2.fringe with
           | (some nn2, fr2) =>
               BarrierParallelSolver.workloadLoop rank thread_id fuel barriers
                 { crit2 with fringe := fr2 } nn2
           | (none, _) => (WorkLoadR.starvation, crit2, barriers))) := by
  simp only [BarrierParallelSolver.workloadLoop]
  rw [if_neg (by omega : ¬ nn.ub ≤ crit.best_lb)]
  rcases halo : alookup (barriers.getD nn.path.length []) nn.state with _ | info <;>
    simp only [candidateSkipped, halo, Option.map_none', Option.map_some', Option.getD_none,
      Option.getD_some]
  · constructor
    · intro
      rfl
    · intro h
      exact absurd h (by simp)
  · by_cases hcode : nn.value > info.theta ∨ (nn.value = info.theta ∧ info.explored = false)
    · have hskip : ¬ (nn.value < info.theta ∨ (nn.value = info.theta ∧ info.explored = true)) := by
        rcases hcode with h1 | ⟨h2, h3⟩
        · rintro (h | ⟨h, _⟩) <;> omega
        · rintro (h | ⟨h, he⟩)
          · omega
          · rw [h3] at he
            exact absurd he (by simp)
      simp only [if_pos hcode, if_neg hskip]
      constructor
      · intro
        rfl
      · intro h
        exact absurd h (by simp)
    · have hskip : nn.value < info.theta ∨ (nn.value = info.theta ∧ info.explored = true) := by
        push_neg at hcode
        rcases lt_trichotomy nn.value info.theta with h | h | h
        · exact Or.inl h
        · refine Or.inr ⟨h, ?_⟩
          cases hbe : info.explored
          · exact absurd hbe (hcode.2 h)
          · rfl
        · exact absurd hcode.1 (by omega)
      simp only [if_neg hcode, if_pos hskip]
      constructor
      · intro h
        exact absurd h (by simp)
      · intro
        rfl

/-- A fresh one-thread critical record over `Nat` with an untouched barrier
store, used to exercise the C3 work-item branch. -/
theorem workloadLoop_candidate_filter_witness :
    candidateSkipped ((BarrierParallelSolver.newBarriers unitProblem).getD 0 [])
      ({ state := 3, value := 2, path := [], ub := 5 } : SubProblem Nat) = false ∧
    BarrierParallelSolver.workloadLoop (fun _ _ => Ordering.eq) 0 1
      (BarrierParallelSolver.newBarriers unitProblem)
      (BarrierParallelSolver.newCritical unitProblem 1)
      ({ state := 3, value := 2, path := [], ub := 5 } : SubProblem Nat) =
      (WorkLoadR.workItem ({ state := 3, value := 2, path := [], ub := 5 } : SubProblem Nat),
       { BarrierParallelSolver.newCritical unitProblem 1 with
         ongoing := 1
         explored := 1
         upper_bounds := (BarrierParallelSolver.newCritical unitProblem 1).upper_bounds.set 0 5
         open_by_layer :=
           decAt (BarrierParallelSolver.newCritical unitProblem 1).open_by_layer 0
         ongoing_by_layer :=
           incAt (BarrierParallelSolver.newCritical unitProblem 1).ongoing_by_layer 0 },
       (BarrierParallelSolver.newBarriers unitProblem).set 0
         (ainsert ((BarrierParallelSolver.newBarriers unitProblem).getD 0 [])
           (3 : Nat) { theta := 2, explored := true })) :=
  ⟨by decide,
   (workloadLoop_candidate_filter (fun _ _ => Ordering.eq) 0 0
     (BarrierParallelSolver.newBarriers unitProblem)
     (BarrierParallelSolver.newCritical unitProblem 1)
     ({ state := 3, value := 2, path := [], ub := 5 } : SubProblem Nat)
     (by decide)).1 (by decide)⟩

/-- Barrier reclamation only advances the lowest active layer (and clears
barrier layers): every other critical field is untouched. -/
theorem reclaimLayers_spec (nb_variables : Nat) :
    ∀ (fuel : Nat) (p : Critical σ × Barriers σ),
    ∃ k, (BarrierParallelSolver.reclaimLayers nb_variables fuel p).1
      = { p.1 with lowest_active_layer := k }
  | 0, p => ⟨p.1.lowest_active_layer, rfl⟩
  | fuel + 1, p => by
    simp only [BarrierParallelSolver.reclaimLayers]
    split
    · obtain ⟨k, hk⟩ := reclaimLayers_spec nb_variables fuel
        ({ p.1 with lowest_active_layer := p.1.lowest_active_layer + 1 },
         p.2.set p.1.lowest_active_layer [])
      exact ⟨k, hk⟩
    · exact ⟨p.1.lowest_active_layer, rfl⟩

/-- The pop-and-filter loop of `get_workload` never writes `best_lb`. -/
theorem workloadLoop_best_lb [DecidableEq σ] [Inhabited σ] (rank : σ → σ → Ordering)
    (thread_id : Nat) :
    ∀ (fuel : Nat) (barriers : Barriers σ) (crit : Critical σ) (nn : SubProblem σ),
    (BarrierParallelSolver.workloadLoop rank thread_id fuel barriers crit nn).2.1.best_lb
      = crit.best_lb
  | 0, barriers, crit, nn => rfl
  | fuel + 1, barriers, crit, nn => by
    simp only [BarrierParallelSolver.workloadLoop]
    split
    · rfl
    · rcases halo : alookup (barriers.getD nn.path.length []) nn.state with _ | info <;>
        simp only [halo, Option.map_none', Option.map_some', Option.getD_none, Option.getD_some]
      · rfl
      · by_cases hcode : nn.value > info.theta ∨ (nn.value = info.theta ∧ info.explored = false)
        · simp only [if_pos hcode]
          rfl
        · simp only [if_neg hcode]
          split
          · rfl
          · split
            · rfl
            · split
              · exact workloadLoop_best_lb rank thread_id fuel _ _ _
              · rfl

/-- `get_workload` never writes `best_lb`, in any of its branches. -/
theorem getWorkload_best_lb [DecidableEq σ] [Inhabited σ] (rank : σ → σ → Ordering)
    (nb_variables thread_id : Nat) (interrupt : Bool) (barriers : Barriers σ)
    (crit : Critical σ) :
    (BarrierParallelSolver.getWorkload rank nb_variables thread_id interrupt barriers
      crit).2.1.best_lb = crit.best_lb := by
  obtain ⟨k, hk⟩ := reclaimLayers_spec nb_variables nb_variables (crit, barriers)
  simp only [BarrierParallelSolver.getWorkload, hk]
  split
  · rfl
  · split
    · rfl
    · split
      · rfl
      · split
        · rfl
        · split
          · exact workloadLoop_best_lb rank thread_id _ _ _ _
          · rfl

/-- `enqueue_cutset` never writes `best_lb`. -/
theorem enqueueCutset_best_lb [DecidableEq σ] [Inhabited σ] (rank : σ → σ → Ordering)
    (dd : Barrier σ) (crit : Critical σ) (ub : Int) :
    (BarrierParallelSolver.enqueueCutset rank dd crit ub).2.best_lb = crit.best_lb := by
  simp only [BarrierParallelSolver.enqueueCutset]
  refine foldl_invariant (fun (cr : Critical σ) => cr.best_lb = crit.best_lb) _ _ _ rfl
    (fun cr c _ h => ?_)
  split
  · exact h
  · exact h

/-- C6: no critical-section operation of the solver decreases `best_lb`:
`maybe_update_best` writes it only when the DD best value is strictly
greater (and then writes exactly that value), `enqueue_cutset`,
`notify_node_finished` and `get_workload` never touch it; and whenever
`get_workload` observes `ongoing = 0` with an empty frontier it returns
Complete having set `best_ub` to `best_lb`, so at proof
`best_ub = best_lb`. -/
theorem best_lb_monotone_and_complete [DecidableEq σ] [Inhabited σ]
    (rank : σ → σ → Ordering) (nb_variables thread_id : Nat) (interrupt : Bool)
    (barriers : Barriers σ) (crit : Critical σ) (ddv : Option Int)
    (dds : Option (List Decision)) (dd : Barrier σ) (ub : Int) (tid2 depth2 ed2 : Nat) :
    crit.best_lb ≤ (BarrierParallelSolver.maybeUpdateBest ddv dds crit).best_lb ∧
    ((BarrierParallelSolver.maybeUpdateBest ddv dds crit).best_lb ≠ crit.best_lb →
      ddv.getD IMIN > crit.best_lb ∧
      (BarrierParallelSolver.maybeUpdateBest ddv dds crit).best_lb = ddv.getD IMIN) ∧
    (BarrierParallelSolver.enqueueCutset rank dd crit ub).2.best_lb = crit.best_lb ∧
    (BarrierParallelSolver.notifyNodeFinished crit tid2 depth2 ed2).best_lb = crit.best_lb ∧
    (BarrierParallelSolver.getWorkload rank nb_variables thread_id interrupt barriers
      crit).2.1.best_lb = crit.best_lb ∧
    (crit.ongoing = 0 ∧ crit.fringe.heap.isEmpty = true →
      (BarrierParallelSolver.getWorkload rank nb_variables thread_id interrupt barriers
        crit).1 = WorkLoadR.complete ∧
      (BarrierParallelSolver.getWorkload rank nb_variables thread_id interrupt barriers
        crit).2.1.best_ub
        = (BarrierParallelSolver.getWorkload rank nb_variables thread_id interrupt barriers
            crit).2.1.best_lb) := by
  refine ⟨?_, ?_, enqueueCutset_best_lb rank dd crit ub, rfl,
    getWorkload_best_lb rank nb_variables thread_id interrupt barriers crit, ?_⟩
  · simp only [BarrierParallelSolver.maybeUpdateBest]
    split
    next h => exact le_of_lt h
    next h => exact le_refl _
  · intro hne
    simp only [BarrierParallelSolver.maybeUpdateBest] at hne ⊢
    split at hne
    next h => exact ⟨h, by simp only [if_pos h]⟩
    next h => exact absurd rfl hne
  · rintro ⟨hongoing, hempty⟩
    obtain ⟨k, hk⟩ := reclaimLayers_spec nb_variables nb_variables (crit, barriers)
    simp only [BarrierParallelSolver.getWorkload, hk]
    rw [if_pos (show crit.ongoing = 0 ∧ crit.fringe.heap.isEmpty = true from
      ⟨hongoing, hempty⟩)]
    exact ⟨rfl, rfl⟩

/-- The C6 witness: a freshly constructed one-thread critical record has an
empty fringe and no ongoing work, so `get_workload` completes with
`best_ub = best_lb`; and `maybe_update_best` with a strictly better DD
value raises `best_lb` to exactly that value. -/
theorem best_lb_monotone_and_complete_witness :
    ((BarrierParallelSolver.getWorkload (fun (_ _ : Nat) => Ordering.eq) 0 0 false
       (BarrierParallelSolver.newBarriers unitProblem)
       (BarrierParallelSolver.newCritical unitProblem 1)).1 = WorkLoadR.complete ∧
     (BarrierParallelSolver.getWorkload (fun (_ _ : Nat) => Ordering.eq) 0 0 false
       (BarrierParallelSolver.newBarriers unitProblem)
       (BarrierParallelSolver.newCritical unitProblem 1)).2.1.best_ub
       = (BarrierParallelSolver.getWorkload (fun (_ _ : Nat) => Ordering.eq) 0 0 false
           (BarrierParallelSolver.newBarriers unitProblem)
           (BarrierParallelSolver.newCritical unitProblem 1)).2.1.best_lb) ∧
    (BarrierParallelSolver.newCritical unitProblem 1).best_lb
      ≤ (BarrierParallelSolver.maybeUpdateBest (some 5) none
          (BarrierParallelSolver.newCritical unitProblem 1)).best_lb :=
  ⟨(best_lb_monotone_and_complete (fun (_ _ : Nat) => Ordering.eq) 0 0 false
      (BarrierParallelSolver.newBarriers unitProblem)
      (BarrierParallelSolver.newCritical unitProblem 1) (some 5) none
      (Barrier.new (BarrierParallelSolver.newBarriers unitProblem) CutsetType.LastExactLayer)
      0 0 0 0).2.2.2.2.2 (by decide),
   (best_lb_monotone_and_complete (fun (_ _ : Nat) => Ordering.eq) 0 0 false
      (BarrierParallelSolver.newBarriers unitProblem)
      (BarrierParallelSolver.newCritical unitProblem 1) (some 5) none
      (Barrier.new (BarrierParallelSolver.newBarriers unitProblem) CutsetType.LastExactLayer)
      0 0 0 0).1⟩

theorem count_set_add [DecidableEq α] :
    ∀ (t : List α) (j : Nat) (x a d : α), j < t.length →
    (t.set j x).count a + (if t.getD j d = a then 1 else 0)
      = t.count a + (if x = a then 1 else 0)
  | [], j, x, a, d, hj => by simp at hj
  | y :: t, 0, x, a, d, hj => by
    simp only [List.set_cons_zero, List.getD_cons_zero, List.count_cons]
    by_cases hy : y = a <;> by_cases hx : x = a <;> simp [hy, hx]
  | y :: t, j + 1, x, a, d, hj => by
    simp only [List.set_cons_succ, List.getD_cons_succ, List.count_cons]
    have := count_set_add t j x a d (by simpa using hj)
    by_cases ht : t.getD j d = a <;> by_cases hx : x = a <;>
      simp [ht, hx] at this ⊢ <;> omega

/-- Swapping two in-range entries of a list is a permutation. -/
theorem swap_perm [DecidableEq α] (l : List α) (i j : Nat) (d : α)
    (hi : i < l.length) (hj : j < l.length) (hij : i ≠ j) :
    ((l.set i (l.getD j d)).set j (l.getD i d)).Perm l := by
  refine List.perm_iff_count.mpr (fun a => ?_)
  have hb : (l.set i (l.getD j d)).getD j d = l.getD j d := getD_set_ne l i j _ d hij
  have h1 := count_set_add (l.set i (l.getD j d)) j (l.getD i d) a d (by simpa using hj)
  rw [hb] at h1
  have h2 := count_set_add l i (l.getD j d) a d hi
  by_cases hba : l.getD j d = a <;> by_cases hca : l.getD i d = a
  · rw [if_pos hba, if_pos hca] at h1 h2
    omega
  · rw [if_pos hba, if_neg hca] at h1 h2
    omega
  · rw [if_neg hba, if_pos hca] at h1 h2
    omega
  · rw [if_neg hba, if_neg hca] at h1 h2
    omega

theorem parentPos_lt (me : Nat) (h : me ≠ 0) : Fr.parentPos me < me := by
  unfold Fr.parentPos
  rw [if_neg h]
  by_cases hodd : me % 2 = 1
  · rw [if_pos hodd]; omega
  · rw [if_neg hodd]; omega

theorem getD_mem (l : List α) (i : Nat) (d : α) (h : i < l.length) : l.getD i d ∈ l := by
  rw [List.getD_eq_getElem l d h]
  exact List.getElem_mem h

theorem nodup_getD_ne (l : List α) (d : α) (h : l.Nodup) (i j : Nat) (hi : i < l.length)
    (hj : j < l.length) (hij : i ≠ j) : l.getD i d ≠ l.getD j d := by
  rw [List.getD_eq_getElem l d hi, List.getD_eq_getElem l d hj]
  intro he
  exact hij ((List.Nodup.getElem_inj_iff h).mp he)

/-- The bubble-up loop only permutes the heap (updating positions
coherently): nodes, states and recycle bin are untouched, and the heap
well-formedness is preserved, provided slot `me` indeed holds node `id`. -/
theorem bubbleUpFrom_spec [Inhabited σ] (rank : σ → σ → Ordering) :
    ∀ (fuel : Nat) (fr : Fr σ) (id me : Nat), FrCore fr → me < fr.heap.length →
      fr.heap.getD me 0 = id →
      FrCore (Fr.bubbleUpFrom rank fuel fr id me) ∧
      (Fr.bubbleUpFrom rank fuel fr id me).heap.Perm fr.heap ∧
      (Fr.bubbleUpFrom rank fuel fr id me).nodes = fr.nodes ∧
      (Fr.bubbleUpFrom rank fuel fr id me).states = fr.states ∧
      (Fr.bubbleUpFrom rank fuel fr id me).recycle_bin = fr.recycle_bin
  | 0, fr, id, me, hcore, hme, hid => ⟨hcore, List.Perm.refl _, rfl, rfl, rfl⟩
  | fuel + 1, fr, id, me, hcore, hme, hid => by
    by_cases h0 : me = 0
    · simp only [Fr.bubbleUpFrom, if_pos h0]
      exact ⟨hcore, List.Perm.refl _, trivial, trivial, trivial⟩
    by_cases hgt : Fr.compareAtPos rank fr me (Fr.parentPos me) = Ordering.gt
    case neg =>
      simp only [Fr.bubbleUpFrom, if_neg h0, if_neg hgt]
      exact ⟨hcore, List.Perm.refl _, trivial, trivial, trivial⟩
    case pos =>
      have hparlt : Fr.parentPos me < me := parentPos_lt me h0
      have hpar : Fr.parentPos me < fr.heap.length := lt_trans hparlt hme
      have hmep : me ≠ Fr.parentPos me := ne_of_gt hparlt
      have hid_lt : id < fr.nodes.length := hcore.hsub id (hid ▸ getD_mem fr.heap me 0 hme)
      have hpid_lt : fr.heap.getD (Fr.parentPos me) 0 < fr.nodes.length :=
        hcore.hsub _ (getD_mem fr.heap (Fr.parentPos me) 0 hpar)
      have hne : id ≠ fr.heap.getD (Fr.parentPos me) 0 := by
        rw [← hid]
        exact nodup_getD_ne fr.heap 0 hcore.nodup me (Fr.parentPos me) hme hpar hmep
      set fr1 : Fr σ :=
        { fr with
          pos := (fr.pos.set (fr.heap.getD (Fr.parentPos me) 0) me).set id (Fr.parentPos me)
          heap :=
            (fr.heap.set me (fr.heap.getD (Fr.parentPos me) 0)).set (Fr.parentPos me) id }
        with hfr1
      have hheap1 : fr1.heap =
          (fr.heap.set me (fr.heap.getD (Fr.parentPos me) 0)).set (Fr.parentPos me) id := rfl
      have hpos1 : fr1.pos =
          (fr.pos.set (fr.heap.getD (Fr.parentPos me) 0) me).set id (Fr.parentPos me) := rfl
      have hnodes1 : fr1.nodes = fr.nodes := rfl
      have hstates1 : fr1.states = fr.states := rfl
      have hrecycle1 : fr1.recycle_bin = fr.recycle_bin := rfl
      have hlen1 : fr1.heap.length = fr.heap.length := by
        rw [hheap1]; simp
      have hperm1 : fr1.heap.Perm fr.heap := by
        rw [hheap1, ← hid]
        exact swap_perm fr.heap me (Fr.parentPos me) 0 hme hpar hmep
      have e_par : fr1.heap.getD (Fr.parentPos me) 0 = id := by
        rw [hheap1]
        exact getD_set_self _ _ _ _ (by simpa using hpar)
      have e_me : fr1.heap.getD me 0 = fr.heap.getD (Fr.parentPos me) 0 := by
        rw [hheap1, getD_set_ne _ _ _ _ _ (Ne.symm hmep)]
        exact getD_set_self _ _ _ _ hme
      have e_other : ∀ k, k ≠ me → k ≠ Fr.parentPos me →
          fr1.heap.getD k 0 = fr.heap.getD k 0 := by
        intro k hkm hkp
        rw [hheap1, getD_set_ne _ _ _ _ _ (Ne.symm hkp), getD_set_ne _ _ _ _ _ (Ne.symm hkm)]
      have p_id_eq : fr1.pos.getD id 0 = Fr.parentPos me := by
        rw [hpos1]
        exact getD_set_self _ _ _ _
          (by rw [List.length_set, hcore.pos_len]; exact hid_lt)
      have p_pid_eq : fr1.pos.getD (fr.heap.getD (Fr.parentPos me) 0) 0 = me := by
        rw [hpos1, getD_set_ne _ _ _ _ _ hne]
        exact getD_set_self _ _ _ _ (by rw [hcore.pos_len]; exact hpid_lt)
      have p_other : ∀ q, q ≠ id → q ≠ fr.heap.getD (Fr.parentPos me) 0 →
          fr1.pos.getD q 0 = fr.pos.getD q 0 := by
        intro q hqi hqp
        rw [hpos1, getD_set_ne _ _ _ _ _ (Ne.symm hqi), getD_set_ne _ _ _ _ _ (Ne.symm hqp)]
      have hcore1 : FrCore fr1 := by
        refine ⟨?_, ?_, ?_, ?_⟩
        · rw [hpos1, hnodes1]
          simp [hcore.pos_len]
        · intro q hq
          rw [hnodes1]
          exact hcore.hsub q (hperm1.mem_iff.mp hq)
        · intro k hk
          have hk' : k < fr.heap.length := by rwa [hlen1] at hk
          by_cases hkp : k = Fr.parentPos me
          · subst hkp
            rw [e_par, p_id_eq]
          · by_cases hkm : k = me
            · subst hkm
              rw [e_me, p_pid_eq]
            · rw [e_other k hkm hkp]
              have hq_id : fr.heap.getD k 0 ≠ id := by
                rw [← hid]
                exact nodup_getD_ne fr.heap 0 hcore.nodup k me hk' hme hkm
              have hq_pid : fr.heap.getD k 0 ≠ fr.heap.getD (Fr.parentPos me) 0 :=
                nodup_getD_ne fr.heap 0 hcore.nodup k (Fr.parentPos me) hk' hpar hkp
              rw [p_other _ hq_id hq_pid]
              exact hcore.coher k hk'
        · exact hperm1.nodup_iff.mpr hcore.nodup
      have hme1 : Fr.parentPos me < fr1.heap.length := by rw [hlen1]; exact hpar
      obtain ⟨c1, p1, n1, s1, r1⟩ :=
        bubbleUpFrom_spec rank fuel fr1 id (Fr.parentPos me) hcore1 hme1 e_par
      simp only [Fr.bubbleUpFrom, if_neg h0, if_pos hgt]
      exact ⟨c1, p1.trans hperm1, n1.trans hnodes1, s1.trans hstates1, r1.trans hrecycle1⟩

theorem mem_getD_index (l : List α) (a d : α) (h : a ∈ l) :
    ∃ i, i < l.length ∧ l.getD i d = a := by
  obtain ⟨i, hi, he⟩ := List.mem_iff_getElem.mp h
  exact ⟨i, hi, by rw [List.getD_eq_getElem l d hi]; exact he⟩

theorem heap_getD_pos (fr : Fr σ) (hcore : FrCore fr) (id : Nat) (hid : id ∈ fr.heap) :
    fr.pos.getD id 0 < fr.heap.length ∧ fr.heap.getD (fr.pos.getD id 0) 0 = id := by
  obtain ⟨i, hi, hgi⟩ := mem_getD_index fr.heap id 0 hid
  have hc := hcore.coher i hi
  rw [hgi] at hc
  rw [hc]
  exact ⟨hi, hgi⟩

/-- `bubble_up` only permutes a well-formed heap; stores are untouched. -/
theorem bubbleUp_spec [Inhabited σ] (rank : σ → σ → Ordering) (fr : Fr σ) (id : Nat)
    (hcore : FrCore fr) (hid : id ∈ fr.heap) :
    FrCore (Fr.bubbleUp rank fr id) ∧
    (Fr.bubbleUp rank fr id).heap.Perm fr.heap ∧
    (Fr.bubbleUp rank fr id).nodes = fr.nodes ∧
    (Fr.bubbleUp rank fr id).states = fr.states ∧
    (Fr.bubbleUp rank fr id).recycle_bin = fr.recycle_bin := by
  obtain ⟨hlt, hg⟩ := heap_getD_pos fr hcore id hid
  exact bubbleUpFrom_spec rank (fr.pos.getD id 0 + 1) fr id (fr.pos.getD id 0) hcore hlt hg

theorem listMax_append (l : List Int) (a : Int) (h : l ≠ []) :
    listMax (l ++ [a]) = max (listMax l) a := by
  match l with
  | [] => exact absurd rfl h
  | x :: t => simp [listMax, List.foldl_append]

theorem pushesOf_append_self [DecidableEq σ] (xs : List (SubProblem σ))
    (node : SubProblem σ) :
    pushesOf (xs ++ [node]) node.state = pushesOf xs node.state ++ [node] := by
  simp [pushesOf, List.filter_append]

theorem pushesOf_append_ne [DecidableEq σ] (xs : List (SubProblem σ))
    (node : SubProblem σ) (s : σ) (h : ¬ node.state = s) :
    pushesOf (xs ++ [node]) s = pushesOf xs s := by
  simp [pushesOf, List.filter_append, h]

/-- The frontier invariant only depends on the heap up to permutation. -/
theorem FrInv_of_perm [DecidableEq σ] [Inhabited σ] (pushes : List (SubProblem σ))
    (fr fr' : Fr σ) (hinv : FrInv pushes fr) (hcore' : FrCore fr')
    (hperm : fr'.heap.Perm fr.heap) (hn : fr'.nodes = fr.nodes)
    (hs : fr'.states = fr.states) (hr : fr'.recycle_bin = fr.recycle_bin) :
    FrInv pushes fr' := by
  refine ⟨hcore', ?_, ?_, ?_, ?_⟩
  · rw [hr, hinv.recycle]
  · intro q hq
    rw [hn, hs]
    exact hinv.smap q (hperm.mem_iff.mp hq)
  · intro s id halo
    rw [hs] at halo
    obtain ⟨h1, h2, h3, h4, h5⟩ := hinv.lookup_spec s id halo
    exact ⟨hperm.mem_iff.mpr h1, by rw [hn]; exact h2, h3,
      by rw [hn]; exact h4, by rw [hn]; exact h5⟩
  · intro s halo
    rw [hs] at halo
    exact hinv.absent s halo

theorem FrInv_bubbleUp [DecidableEq σ] [Inhabited σ] (rank : σ → σ → Ordering)
    (pushes : List (SubProblem σ)) (fr : Fr σ) (id : Nat)
    (hinv : FrInv pushes fr) (hid : id ∈ fr.heap) :
    FrInv pushes (Fr.bubbleUp rank fr id) := by
  obtain ⟨c, p, n, s, r⟩ := bubbleUp_spec rank fr id hinv.core hid
  exact FrInv_of_perm pushes fr _ hinv c p n s r

theorem FrInv_empty [DecidableEq σ] [Inhabited σ] :
    FrInv ([] : List (SubProblem σ)) (Fr.empty : Fr σ) := by
  refine ⟨⟨rfl, ?_, ?_, List.nodup_nil⟩, rfl, ?_, ?_, ?_⟩
  · intro id h; simp [Fr.empty] at h
  · intro i h; simp [Fr.empty] at h
  · intro id h; simp [Fr.empty] at h
  · intro s id h; simp [Fr.empty, alookup] at h
  · intro s h; simp [pushesOf]

/-- Occupied-state push, before the heap action: overwriting the stored
record with the componentwise max of old and new value/ub preserves the
frontier invariant, extended by the new push. -/
theorem FrInv_update_node [DecidableEq σ] [Inhabited σ] (pushes : List (SubProblem σ))
    (fr fr' : Fr σ) (node : SubProblem σ) (id : Nat) (hinv : FrInv pushes fr)
    (halo : alookup fr.states node.state = some id)
    (hs : fr'.states = fr.states) (hp : fr'.pos = fr.pos) (hh : fr'.heap = fr.heap)
    (hr : fr'.recycle_bin = fr.recycle_bin)
    (hlen : fr'.nodes.length = fr.nodes.length)
    (hother : ∀ q, q ≠ id → fr'.nodes.getD q default = fr.nodes.getD q default)
    (hstate : (fr'.nodes.getD id default).state = node.state)
    (hval : (fr'.nodes.getD id default).value
      = max (fr.nodes.getD id default).value node.value)
    (hub : (fr'.nodes.getD id default).ub = max (fr.nodes.getD id default).ub node.ub) :
    FrInv (pushes ++ [node]) fr' := by
  obtain ⟨hidmem, hstold, hne_p, hvold, hubold⟩ := hinv.lookup_spec node.state id halo
  refine ⟨⟨?_, ?_, ?_, ?_⟩, ?_, ?_, ?_, ?_⟩
  · rw [hp, hlen, hinv.core.pos_len]
  · intro q hq
    rw [hlen]
    exact hinv.core.hsub q (hh ▸ hq)
  · intro i hi
    rw [hh] at hi ⊢
    rw [hp]
    exact hinv.core.coher i hi
  · rw [hh]; exact hinv.core.nodup
  · rw [hr, hinv.recycle]
  · intro q hq
    rw [hh] at hq
    rw [hs]
    by_cases hqid : q = id
    · subst hqid
      rw [hstate, ← hstold]
      exact hinv.smap q hq
    · rw [hother q hqid]
      exact hinv.smap q hq
  · intro s id' halo'
    rw [hs] at halo'
    obtain ⟨m1, m2, m3, m4, m5⟩ := hinv.lookup_spec s id' halo'
    by_cases hid' : id' = id
    · subst hid'
      have hse : s = node.state := by rw [← m2, hstold]
      subst hse
      have hmapne : (pushesOf pushes node.state).map (fun x => x.value) ≠ [] := by
        simpa using m3
      have hmapne' : (pushesOf pushes node.state).map (fun x => x.ub) ≠ [] := by
        simpa using m3
      refine ⟨hh ▸ m1, by rw [hstate], ?_, ?_, ?_⟩
      · rw [pushesOf_append_self]
        simp [m3]
      · rw [pushesOf_append_self]
        simp only [List.map_append, List.map_cons, List.map_nil]
        rw [listMax_append _ _ hmapne, hval, hvold]
      · rw [pushesOf_append_self]
        simp only [List.map_append, List.map_cons, List.map_nil]
        rw [listMax_append _ _ hmapne', hub, hubold]
    · have hsne : ¬ node.state = s := by
        intro he
        rw [he] at halo
        rw [halo] at halo'
        exact hid' (Option.some_injective _ halo').symm
      rw [pushesOf_append_ne _ _ _ hsne]
      exact ⟨hh ▸ m1, by rw [hother id' hid']; exact m2, m3,
        by rw [hother id' hid']; exact m4, by rw [hother id' hid']; exact m5⟩
  · intro s halo'
    rw [hs] at halo'
    have hsne : ¬ node.state = s := by
      intro he
      rw [he, halo'] at halo
      exact Option.noConfusion halo
    rw [pushesOf_append_ne _ _ _ hsne]
    exact hinv.absent s halo'

/-- Vacant-state push with an empty recycle bin, before the heap action:
appending a fresh node, binding its state and placing it at the heap tail
preserves the frontier invariant, extended by the new push. -/
theorem FrInv_alloc [DecidableEq σ] [Inhabited σ] (pushes : List (SubProblem σ))
    (fr : Fr σ) (node : SubProblem σ) (hinv : FrInv pushes fr)
    (halo : alookup fr.states node.state = none) :
    FrInv (pushes ++ [node])
      { states := (node.state, fr.nodes.length) :: fr.states
        nodes := fr.nodes ++ [node]
        pos := (fr.pos ++ [0]).set fr.nodes.length
          ((fr.heap ++ [fr.nodes.length]).length - 1)
        heap := fr.heap ++ [fr.nodes.length]
        recycle_bin := fr.recycle_bin } := by
  have hlenA : (fr.heap ++ [fr.nodes.length]).length - 1 = fr.heap.length := by simp
  have hposlen : fr.nodes.length < (fr.pos ++ [0]).length := by
    simp [hinv.core.pos_len]
  refine ⟨⟨?_, ?_, ?_, ?_⟩, hinv.recycle, ?_, ?_, ?_⟩
  · simp [hinv.core.pos_len]
  · intro q hq
    simp only [List.mem_append, List.mem_singleton] at hq
    rcases hq with hq | hq
    · have := hinv.core.hsub q hq
      simp only [List.length_append, List.length_singleton]
      omega
    · simp [hq]
  · intro i hi
    simp only [List.length_append, List.length_singleton] at hi
    rcases Nat.lt_or_ge i fr.heap.length with hilt | hige
    · rw [getD_append_lt _ _ _ _ hilt]
      have hqmem : fr.heap.getD i 0 ∈ fr.heap := getD_mem _ _ _ hilt
      have hqlt : fr.heap.getD i 0 < fr.nodes.length := hinv.core.hsub _ hqmem
      rw [getD_set_ne _ _ _ _ _ (Nat.ne_of_gt hqlt)]
      rw [getD_append_lt _ _ _ _ (by rw [hinv.core.pos_len]; exact hqlt)]
      exact hinv.core.coher i hilt
    · have hieq : i = fr.heap.length := by omega
      subst hieq
      rw [getD_append_length, hlenA]
      exact getD_set_self _ _ _ _ hposlen
  · rw [List.nodup_append]
    refine ⟨hinv.core.nodup, List.nodup_singleton _, ?_⟩
    intro q hq hq'
    rw [List.mem_singleton] at hq'
    exact absurd (hq' ▸ hinv.core.hsub q hq) (lt_irrefl _)
  · intro q hq
    simp only [List.mem_append, List.mem_singleton] at hq
    rcases hq with hq | hq
    · have hqlt : q < fr.nodes.length := hinv.core.hsub q hq
      rw [getD_append_lt _ _ _ _ hqlt]
      have hsm := hinv.smap q hq
      have hsne : ¬ node.state = (fr.nodes.getD q default).state := by
        intro he
        rw [he, hsm] at halo
        exact Option.noConfusion halo
      simp only [alookup, if_neg hsne]
      exact hsm
    · subst hq
      rw [getD_append_length]
      simp [alookup]
  · intro s id' halo'
    simp only [alookup] at halo'
    by_cases hsn : node.state = s
    · rw [if_pos hsn] at halo'
      have hid' : id' = fr.nodes.length := (Option.some_injective _ halo').symm
      subst hid'
      subst hsn
      have hpz : pushesOf pushes node.state = [] := hinv.absent node.state halo
      rw [pushesOf_append_self, hpz]
      refine ⟨?_, ?_, ?_, ?_, ?_⟩
      · simp
      · rw [getD_append_length]
      · simp
      · rw [getD_append_length]; rfl
      · rw [getD_append_length]; rfl
    · rw [if_neg hsn] at halo'
      obtain ⟨m1, m2, m3, m4, m5⟩ := hinv.lookup_spec s id' halo'
      have hqlt : id' < fr.nodes.length := hinv.core.hsub id' m1
      rw [pushesOf_append_ne _ _ _ hsn]
      refine ⟨?_, ?_, m3, ?_, ?_⟩
      · simp [m1]
      · rw [getD_append_lt _ _ _ _ hqlt]; exact m2
      · rw [getD_append_lt _ _ _ _ hqlt]; exact m4
      · rw [getD_append_lt _ _ _ _ hqlt]; exact m5
  · intro s halo'
    simp only [alookup] at halo'
    by_cases hsn : node.state = s
    · rw [if_pos hsn] at halo'
      exact Option.noConfusion halo'
    · rw [if_neg hsn] at halo'
      rw [pushesOf_append_ne _ _ _ hsn]
      exact hinv.absent s halo'

theorem getD_set_set_self (l : List α) (i : Nat) (x y d : α) (h : i < l.length) :
    ((l.set i x).set i y).getD i d = y :=
  getD_set_self _ _ _ _ (by simpa using h)

/-- `push` on an occupied state is the factored store update followed by
the heap action decided on the max-ub merge of old and new. -/
theorem push_eq_occupied [DecidableEq σ] [Inhabited σ] (rank : σ → σ → Ordering)
    (fr : Fr σ) (node : SubProblem σ) (id : Nat)
    (halo : alookup fr.states node.state = some id) :
    Fr.push rank fr node =
      Fr.processAction rank (Fr.pushOccupied fr node id)
        (if maxUB rank { node with ub := max node.ub (fr.nodes.getD id default).ub }
            (fr.nodes.getD id default) = Ordering.gt
         then Action.bubbleUp id else Action.doNothing) := by
  unfold Fr.push Fr.pushOccupied
  rw [halo]

/-- `push` on a vacant state with an empty recycle bin appends a fresh slot
and bubbles it up from the heap tail. -/
theorem push_eq_vacant [DecidableEq σ] [Inhabited σ] (rank : σ → σ → Ordering)
    (fr : Fr σ) (node : SubProblem σ)
    (halo : alookup fr.states node.state = none) (hrec : fr.recycle_bin = []) :
    Fr.push rank fr node =
      Fr.bubbleUp rank
        { states := (node.state, fr.nodes.length) :: fr.states
          nodes := fr.nodes ++ [node]
          pos := (fr.pos ++ [0]).set fr.nodes.length
            ((fr.heap ++ [fr.nodes.length]).length - 1)
          heap := fr.heap ++ [fr.nodes.length]
          recycle_bin := fr.recycle_bin } fr.nodes.length := by
  unfold Fr.push
  rw [halo, hrec]
  rfl

theorem pushOccupied_heap [DecidableEq σ] [Inhabited σ] (fr : Fr σ)
    (node : SubProblem σ) (id : Nat) : (Fr.pushOccupied fr node id).heap = fr.heap := by
  unfold Fr.pushOccupied
  simp only []
  split <;> split <;> rfl

/-- Specialization of `FrInv_update_node` to a plain replacement of the
node store. -/
theorem FrInv_set_nodes [DecidableEq σ] [Inhabited σ] (pushes : List (SubProblem σ))
    (fr : Fr σ) (nodes' : List (SubProblem σ)) (node : SubProblem σ) (id : Nat)
    (hinv : FrInv pushes fr) (halo : alookup fr.states node.state = some id)
    (hlen : nodes'.length = fr.nodes.length)
    (hother : ∀ q, q ≠ id → nodes'.getD q default = fr.nodes.getD q default)
    (hstate : (nodes'.getD id default).state = node.state)
    (hval : (nodes'.getD id default).value
      = max (fr.nodes.getD id default).value node.value)
    (hub : (nodes'.getD id default).ub = max (fr.nodes.getD id default).ub node.ub) :
    FrInv (pushes ++ [node]) { fr with nodes := nodes' } :=
  FrInv_update_node pushes fr _ node id hinv halo rfl rfl rfl rfl hlen hother hstate hval hub

/-- The occupied-case store update keeps the per-state max value and max ub. -/
theorem FrInv_pushOccupied [DecidableEq σ] [Inhabited σ] (pushes : List (SubProblem σ))
    (fr : Fr σ) (node : SubProblem σ) (id : Nat) (hinv : FrInv pushes fr)
    (halo : alookup fr.states node.state = some id) :
    FrInv (pushes ++ [node]) (Fr.pushOccupied fr node id) := by
  obtain ⟨hidmem, hstold, -, -, -⟩ := hinv.lookup_spec node.state id halo
  have hidlt : id < fr.nodes.length := hinv.core.hsub id hidmem
  have hW : (fr.nodes.set id
        { node with ub := max node.ub (fr.nodes.getD id default).ub }).getD id default
      = { node with ub := max node.ub (fr.nodes.getD id default).ub } :=
    getD_set_self _ _ _ _ (by simpa using hidlt)
  unfold Fr.pushOccupied
  simp only []
  split
  · rename_i hu
    split
    · rename_i hv
      refine FrInv_set_nodes pushes fr _ node id hinv halo ?_ ?_ ?_ ?_ ?_
      · simp
      · intro q hq
        rw [getD_set_ne _ _ _ _ _ (Ne.symm hq), getD_set_ne _ _ _ _ _ (Ne.symm hq)]
      · rw [getD_set_set_self _ _ _ _ _ hidlt, hW]
      · rw [getD_set_set_self _ _ _ _ _ hidlt, hW]
        exact (max_eq_right (le_of_lt hv)).symm
      · rw [getD_set_set_self _ _ _ _ _ hidlt]
        exact (max_eq_right (le_of_lt hu)).symm
    · rename_i hv
      refine FrInv_set_nodes pushes fr _ node id hinv halo ?_ ?_ ?_ ?_ ?_
      · simp
      · intro q hq
        rw [getD_set_ne _ _ _ _ _ (Ne.symm hq)]
      · rw [getD_set_self _ _ _ _ hidlt]
        exact hstold
      · rw [getD_set_self _ _ _ _ hidlt]
        exact (max_eq_left (not_lt.mp hv)).symm
      · rw [getD_set_self _ _ _ _ hidlt]
        exact (max_eq_right (le_of_lt hu)).symm
  · rename_i hu
    split
    · rename_i hv
      refine FrInv_set_nodes pushes fr _ node id hinv halo ?_ ?_ ?_ ?_ ?_
      · simp
      · intro q hq
        rw [getD_set_ne _ _ _ _ _ (Ne.symm hq)]
      · rw [getD_set_self _ _ _ _ hidlt]
      · rw [getD_set_self _ _ _ _ hidlt]
        exact (max_eq_right (le_of_lt hv)).symm
      · rw [getD_set_self _ _ _ _ hidlt]
        exact max_comm node.ub (fr.nodes.getD id default).ub
    · rename_i hv
      exact FrInv_set_nodes pushes fr fr.nodes node id hinv halo rfl
        (fun q hq => rfl) hstold (max_eq_left (not_lt.mp hv)).symm
        (max_eq_left (not_lt.mp hu)).symm

/-- Any single `push` extends the frontier invariant by the pushed node. -/
theorem push_preserves_FrInv [DecidableEq σ] [Inhabited σ] (rank : σ → σ → Ordering)
    (pushes : List (SubProblem σ)) (fr : Fr σ) (node : SubProblem σ)
    (hinv : FrInv pushes fr) : FrInv (pushes ++ [node]) (Fr.push rank fr node) := by
  cases halo : alookup fr.states node.state with
  | some id =>
      obtain ⟨hidmem, -, -, -, -⟩ := hinv.lookup_spec node.state id halo
      rw [push_eq_occupied rank fr node id halo]
      have hmid := FrInv_pushOccupied pushes fr node id hinv halo
      by_cases hact : maxUB rank
          { node with ub := max node.ub (fr.nodes.getD id default).ub }
          (fr.nodes.getD id default) = Ordering.gt
      · rw [if_pos hact]
        simp only [Fr.processAction]
        refine FrInv_bubbleUp rank _ _ _ hmid ?_
        rw [pushOccupied_heap]
        exact hidmem
      · rw [if_neg hact]
        simp only [Fr.processAction]
        exact hmid
  | none =>
      rw [push_eq_vacant rank fr node halo hinv.recycle]
      refine FrInv_bubbleUp rank _ _ _ (FrInv_alloc pushes fr node hinv halo) ?_
      simp

/-- A push-only run from any invariant-holding frontier keeps the
invariant, accumulating the pushed nodes. -/
theorem pushAll_FrInv [DecidableEq σ] [Inhabited σ] (rank : σ → σ → Ordering)
    (xs : List (SubProblem σ)) :
    ∀ (pushes : List (SubProblem σ)) (fr : Fr σ), FrInv pushes fr →
      FrInv (pushes ++ xs) (Fr.pushAll rank fr xs) := by
  induction xs with
  | nil =>
      intro pushes fr h
      simpa [Fr.pushAll] using h
  | cons x t ih =>
      intro pushes fr h
      have h2 := ih (pushes ++ [x]) (Fr.push rank fr x)
        (push_preserves_FrInv rank pushes fr x h)
      have he : (pushes ++ [x]) ++ t = pushes ++ x :: t := by simp
      rw [he] at h2
      simpa [Fr.pushAll] using h2

/-- C5: after any sequence of pushes into an initially empty
`NoDupFrontier`, the states stored in the heap are pairwise distinct (at
most one entry per state), and for every state that was pushed at least
once the frontier holds exactly one entry for it, whose value is the
maximum value over all pushes of that state and whose ub is the maximum ub
over all pushes of that state. -/
theorem frontier_dedup_max [DecidableEq σ] [Inhabited σ] (rank : σ → σ → Ordering)
    (xs : List (SubProblem σ)) :
    ((Fr.pushAll rank Fr.empty xs).heap.map
        (fun id => ((Fr.pushAll rank Fr.empty xs).nodes.getD id default).state)).Nodup ∧
    ∀ s, pushesOf xs s ≠ [] →
      ∃ id, id ∈ (Fr.pushAll rank Fr.empty xs).heap ∧
        ((Fr.pushAll rank Fr.empty xs).nodes.getD id default).state = s ∧
        ((Fr.pushAll rank Fr.empty xs).nodes.getD id default).value
          = listMax ((pushesOf xs s).map (fun x => x.value)) ∧
        ((Fr.pushAll rank Fr.empty xs).nodes.getD id default).ub
          = listMax ((pushesOf xs s).map (fun x => x.ub)) := by
  have hinv : FrInv xs (Fr.pushAll rank Fr.empty xs) := by
    have h := pushAll_FrInv rank xs [] Fr.empty FrInv_empty
    simpa using h
  constructor
  · refine List.Nodup.map_on ?_ hinv.core.nodup
    intro x hx y hy hxy
    have h1 := hinv.smap x hx
    have h2 := hinv.smap y hy
    rw [hxy] at h1
    exact Option.some_injective _ (h1.symm.trans h2)
  · intro s hs
    cases halo : alookup (Fr.pushAll rank Fr.empty xs).states s with
    | none => exact absurd (hinv.absent s halo) hs
    | some id =>
        obtain ⟨m1, m2, -, m4, m5⟩ := hinv.lookup_spec s id halo
        exact ⟨id, m1, m2, m4, m5⟩

/-- C5 witness: in the concrete three-push run two pushes share state `5`
with crossing improvements (value 1/ub 10 then value 3/ub 2); the theorem
applies and the stored entry carries value 3 and ub 10. -/
theorem frontier_dedup_max_witness :
    pushesOf c5Pushes 5 ≠ [] ∧
    (((Fr.pushAll c5Rank Fr.empty c5Pushes).heap.map
        (fun id =>
          ((Fr.pushAll c5Rank Fr.empty c5Pushes).nodes.getD id default).state)).Nodup ∧
      ∃ id, id ∈ (Fr.pushAll c5Rank Fr.empty c5Pushes).heap ∧
        ((Fr.pushAll c5Rank Fr.empty c5Pushes).nodes.getD id default).state = 5 ∧
        ((Fr.pushAll c5Rank Fr.empty c5Pushes).nodes.getD id default).value
          = listMax ((pushesOf c5Pushes 5).map (fun x => x.value)) ∧
        ((Fr.pushAll c5Rank Fr.empty c5Pushes).nodes.getD id default).ub
          = listMax ((pushesOf c5Pushes 5).map (fun x => x.ub))) :=
  ⟨by decide, (frontier_dedup_max c5Rank c5Pushes).1,
    (frontier_dedup_max c5Rank c5Pushes).2 5 (by decide)⟩

end DdoCaching
